import Mathlib

/-!
Verification of the dynetworkx temporal-graph library (shallow embedding).

This file embeds, in Lean, the parts of the library that the checked claims
are about:

* `dynetworkx/classes/intervaltree.py` — the augmented AVL-style interval
  tree (`Node`, `IntervalTree`): insertion with rotations, the pruned
  overlap query, bucket management, and the (buggy) removal path.
* `dynetworkx/classes/intervalgraph.py` — `IntervalGraph.add_edge`,
  `IntervalGraph.edges`, `IntervalGraph.remove_edge`, `IntervalGraph.degree`
  and their helpers, including the Python truthiness of `begin`/`end`
  arguments (`0` and `None` are both falsy) which the code relies on.
* `dynetworkx/classes/impulsegraph.py` and `impulsedigraph.py` — the
  timestamp-keyed `SortedDict` index, `add_edge`, `edges`, `has_edge`,
  `degree` and the private `__in_interval` / `__overlaps_or_contains`
  helpers.
* `dynetworkx/algorithms/count_temporal_motif.py` — the temporal motif
  counter (subgraph enumeration, incremental prefix counting, isomorphism
  matching).
* `dynetworkx/classes/snapshotgraph.py` — `SnapshotGraph._get` with
  `split_overlaps` and `add_nodes_from`.

Python `dict`s are modelled as insertion-ordered association lists,
`sortedcontainers.SortedDict` as a key-sorted association list, Python
`set`s as duplicate-free lists, timestamps and node labels as `Int`, and
attribute dictionaries as association lists from `String` to `Int`.
Fallible code returns `Except String`.
-/

/-- Attribute dictionary payload of a node or edge (string-keyed). -/
abbrev Attr : Type := List (String × Int)

/-- An interval edge `(u, v, begin, end)` as stored by `IntervalGraph`. -/
structure IEdge where
  u : Int
  v : Int
  low : Int
  high : Int
deriving DecidableEq, Repr

/-- The `Node` objects of `intervaltree.py` linked into a binary tree.
Fields mirror `Node.__init__`: key `(low, high)`, the augmented `max`,
the bucket `edges` of all edges with this exact key, the cached `height`,
and the two children (`None` is the `leaf` constructor). -/
inductive ITree : Type where
  | leaf : ITree
  | node (low high maxv : Int) (bucket : List IEdge) (hgt : Int)
      (left right : ITree) : ITree
deriving DecidableEq, Repr

namespace ITree

/-- `IntervalTree.getHeight`: `0` for `None`, else the stored height. -/
def getHeight : ITree → Int
  | .leaf => 0
  | .node _ _ _ _ h _ _ => h

/-- Stored `max` field (`0` is junk for `None`, never read by the code). -/
def maxvOf : ITree → Int
  | .leaf => 0
  | .node _ _ m _ _ _ _ => m

/-- Key of a node (junk for `None`). -/
def keyOf : ITree → Int × Int
  | .leaf => (0, 0)
  | .node lo hi _ _ _ _ _ => (lo, hi)

/-- Left child. -/
def leftOf : ITree → ITree
  | .leaf => .leaf
  | .node _ _ _ _ _ l _ => l

/-- Right child. -/
def rightOf : ITree → ITree
  | .leaf => .leaf
  | .node _ _ _ _ _ _ r => r

/-- Python truthiness of a node reference (`None` is falsy). -/
def isNode : ITree → Prop := fun t => t ≠ .leaf

instance (t : ITree) : Decidable t.isNode := by unfold isNode; infer_instance

end ITree

/-- `Node.inInterval(begin, end)` of `intervaltree.py` line 15:
`(self.low < end and self.high > begin) or self.low == begin`. -/
def nodeInInterval (lo hi b e : Int) : Prop :=
  (lo < e ∧ hi > b) ∨ lo = b

instance (lo hi b e : Int) : Decidable (nodeInInterval lo hi b e) := by
  unfold nodeInInterval; infer_instance

/-- Strict lexicographic order on `(low, high)` keys, the comparison
`node.low < root.low or (node.low == root.low and node.high < root.high)`
used by `IntervalTree.insert` and `IntervalTree.discard`. -/
def lexLt (a b : Int × Int) : Prop :=
  a.1 < b.1 ∨ (a.1 = b.1 ∧ a.2 < b.2)

instance (a b : Int × Int) : Decidable (lexLt a b) := by
  unfold lexLt; infer_instance

/-- The `max(...)` recomputation of `IntervalTree.updateMax`, which reads
the stored `max` of whichever children are present. -/
def localMax (hi : Int) (l r : ITree) : Int :=
  match l, r with
  | .leaf, .leaf => hi
  | .node _ _ lm _ _ _ _, .leaf => max hi lm
  | .leaf, .node _ _ rm _ _ _ _ => max hi rm
  | .node _ _ lm _ _ _ _, .node _ _ rm _ _ _ _ => max hi (max rm lm)

/-- `IntervalTree.updateMax(node)` as a function returning the node with
its `max` field recomputed from its children's stored `max` fields. -/
def updateMax : ITree → ITree
  | .leaf => .leaf
  | .node lo hi _ bu h l r => .node lo hi (localMax hi l r) bu h l r

/-- `IntervalTree.leftRotate(x)`.  The source dereferences `x.right`
unconditionally; it is only ever called when `x.right` is present, and the
degenerate patterns return the input unchanged. -/
def leftRotate : ITree → ITree
  | .leaf => .leaf
  | .node xl xh xm xb xhgt xleft .leaf => .node xl xh xm xb xhgt xleft .leaf
  | .node xl xh xm xb _ xleft (.node yl yh ym yb _ t yr) =>
      let x1 : ITree :=
        .node xl xh xm xb (1 + max xleft.getHeight t.getHeight) xleft t
      let x2 := updateMax x1
      let y1 : ITree :=
        .node yl yh ym yb (1 + max x2.getHeight yr.getHeight) x2 yr
      updateMax y1

/-- `IntervalTree.rightRotate(x)`. -/
def rightRotate : ITree → ITree
  | .leaf => .leaf
  | .node xl xh xm xb xhgt .leaf xright => .node xl xh xm xb xhgt .leaf xright
  | .node xl xh xm xb _ (.node yl yh ym yb _ yl2 t) xright =>
      let x1 : ITree :=
        .node xl xh xm xb (1 + max t.getHeight xright.getHeight) t xright
      let x2 := updateMax x1
      let y1 : ITree :=
        .node yl yh ym yb (1 + max yl2.getHeight x2.getHeight) yl2 x2
      updateMax y1

/-- `IntervalTree.insert(root, node)` where `nd` is the freshly created
`Node` being inserted (a leaf node with a one-edge bucket).  The source's
identity tests `root.left.right == node` / `root.right.left == node` are
modelled by structural equality, which coincides with identity here because
the fresh node's key occurs nowhere else in the tree. -/
def insertT (root nd : ITree) : ITree :=
  match root with
  | .leaf => nd
  | .node lo hi m bu _ l r =>
    if lexLt nd.keyOf (lo, hi) then
      let l' := insertT l nd
      let hgt := 1 + max l'.getHeight r.getHeight
      let bal := l'.getHeight - r.getHeight
      if bal > 1 then
        let l'' := if l'.rightOf = nd then leftRotate l' else l'
        rightRotate (.node lo hi m bu hgt l'' r)
      else if bal < -1 then
        let r'' := if r.leftOf = nd then rightRotate r else r
        leftRotate (.node lo hi m bu hgt l' r'')
      else
        updateMax (.node lo hi m bu hgt l' r)
    else
      let r' := insertT r nd
      let hgt := 1 + max l.getHeight r'.getHeight
      let bal := l.getHeight - r'.getHeight
      if bal > 1 then
        let l'' := if l.rightOf = nd then leftRotate l else l
        rightRotate (.node lo hi m bu hgt l'' r')
      else if bal < -1 then
        let r'' := if r'.leftOf = nd then rightRotate r' else r'
        leftRotate (.node lo hi m bu hgt l r'')
      else
        updateMax (.node lo hi m bu hgt l r')

/-- `IntervalTree.query(node, begin, end)`: the pruned recursive descent,
returning the qualifying nodes as `(low, high, bucket)` triples in
traversal order. -/
def queryT (t : ITree) (b e : Int) : List (Int × Int × List IEdge) :=
  match t with
  | .leaf => []
  | .node lo hi _ bu _ l r =>
    (if l.isNode ∧ l.maxvOf ≥ b then queryT l b e else [])
      ++ (if nodeInInterval lo hi b e then [(lo, hi, bu)] else [])
      ++ (if r.isNode ∧ lo ≤ e ∧ r.maxvOf ≥ b then queryT r b e else [])

/-- `IntervalTree.discard(root, node)` for a node identified by its key
`k` (object identity coincides with key equality: keys are unique in the
tree).  Returns the new subtree root, as the source's recursive calls use
it (`root.left = self.discard(root.left, node)`). -/
def discardT (root : ITree) (k : Int × Int) : ITree :=
  match root with
  | .leaf => .leaf
  | .node lo hi m bu _ l r =>
    if (lo, hi) = k then
      -- `if root.left: return root.left; if root.right: return root.right`
      if l ≠ .leaf then l else if r ≠ .leaf then r else .leaf
    else
      if lexLt k (lo, hi) then
        let l' := discardT l k
        let hgt := 1 + max l'.getHeight r.getHeight
        let bal := l'.getHeight - r.getHeight
        if bal > 1 then
          let l'' := if l'.rightOf.keyOf = k then leftRotate l' else l'
          rightRotate (.node lo hi m bu hgt l'' r)
        else if bal < -1 then
          let r'' := if r.leftOf.keyOf = k then rightRotate r else r
          leftRotate (.node lo hi m bu hgt l' r'')
        else
          updateMax (.node lo hi m bu hgt l' r)
      else
        let r' := discardT r k
        let hgt := 1 + max l.getHeight r'.getHeight
        let bal := l.getHeight - r'.getHeight
        if bal > 1 then
          let l'' := if l.rightOf.keyOf = k then leftRotate l else l
          rightRotate (.node lo hi m bu hgt l'' r')
        else if bal < -1 then
          let r'' := if r'.leftOf.keyOf = k then rightRotate r' else r'
          leftRotate (.node lo hi m bu hgt l r'')
        else
          updateMax (.node lo hi m bu hgt l r')

/-- The effect of the statement `self.discard(self.root, node)` inside
`IntervalTree.remove`, whose RETURN VALUE IS DROPPED: only the in-place
mutations of the object `self.root` survive.  If the root itself is the
discarded node, nothing happens at all; if a rebalancing rotation fires at
the root, the rotation mutates the root object (`x.left = t`, heights and
maxes updated) but the returned new parent `y` is lost, orphaning `y` and
its other subtree. -/
def discardTop (root : ITree) (k : Int × Int) : ITree :=
  match root with
  | .leaf => .leaf
  | .node lo hi m bu hgt0 l r =>
    if (lo, hi) = k then
      -- `if root is node: return ...` — the return value is dropped, so
      -- the tree reachable from `self.root` is unchanged.
      .node lo hi m bu hgt0 l r
    else
      if lexLt k (lo, hi) then
        let l' := discardT l k
        let hgt := 1 + max l'.getHeight r.getHeight
        let bal := l'.getHeight - r.getHeight
        if bal > 1 then
          -- `return self.rightRotate(root)` with the result dropped:
          -- the mutations on the root object are `x.left = y.right`,
          -- height and max recomputations; the returned `y` is orphaned.
          let l'' := if l'.rightOf.keyOf = k then leftRotate l' else l'
          let t := l''.rightOf
          updateMax (.node lo hi m bu (1 + max t.getHeight r.getHeight) t r)
        else if bal < -1 then
          let r'' := if r.leftOf.keyOf = k then rightRotate r else r
          let t := r''.leftOf
          updateMax (.node lo hi m bu (1 + max l'.getHeight t.getHeight) l' t)
        else
          updateMax (.node lo hi m bu hgt l' r)
      else
        let r' := discardT r k
        let hgt := 1 + max l.getHeight r'.getHeight
        let bal := l.getHeight - r'.getHeight
        if bal > 1 then
          let l'' := if l.rightOf.keyOf = k then leftRotate l else l
          let t := l''.rightOf
          updateMax (.node lo hi m bu (1 + max t.getHeight r'.getHeight) t r')
        else if bal < -1 then
          let r'' := if r'.leftOf.keyOf = k then rightRotate r' else r'
          let t := r''.leftOf
          updateMax (.node lo hi m bu (1 + max l.getHeight t.getHeight) l t)
        else
          updateMax (.node lo hi m bu hgt l r')

/-- All node keys of a tree, in symmetric order. -/
def keysOf : ITree → List (Int × Int)
  | .leaf => []
  | .node lo hi _ _ _ l r => keysOf l ++ (lo, hi) :: keysOf r

/-- All bucketed edges of a tree, in symmetric order. -/
def allEdges : ITree → List IEdge
  | .leaf => []
  | .node _ _ _ bu _ l r => allEdges l ++ bu ++ allEdges r

/-- All nodes of a tree as `(low, high, bucket)` triples, symmetric order. -/
def nodesOf : ITree → List (Int × Int × List IEdge)
  | .leaf => []
  | .node lo hi _ bu _ l r => nodesOf l ++ (lo, hi, bu) :: nodesOf r

/-- Append an edge to the bucket of the node with key `k` (the mutation
`node.edges.append(edge)` on the node object found in `self.nodes`; that
object is the tree node with key `k`, which is unique and reachable for
histories made of `add` calls). -/
def appendBucket (t : ITree) (k : Int × Int) (e : IEdge) : ITree :=
  match t with
  | .leaf => .leaf
  | .node lo hi m bu h l r =>
    if (lo, hi) = k then .node lo hi m (bu ++ [e]) h l r
    else .node lo hi m bu h (appendBucket l k e) (appendBucket r k e)

/-- Remove the first occurrence of an edge from the bucket of the node
with key `k` (the mutation `node.edges.remove(edge)`). -/
def eraseBucket (t : ITree) (k : Int × Int) (e : IEdge) : ITree :=
  match t with
  | .leaf => .leaf
  | .node lo hi m bu h l r =>
    if (lo, hi) = k then .node lo hi m (bu.erase e) h l r
    else .node lo hi m bu h (eraseBucket l k e) (eraseBucket r k e)

/-- The bucket stored at key `k` (empty if no such node). -/
def bucketAt (t : ITree) (k : Int × Int) : List IEdge :=
  match t with
  | .leaf => []
  | .node lo hi _ bu _ l r =>
    if (lo, hi) = k then bu else bucketAt l k ++ bucketAt r k

/-! ## The `IntervalTree` object (root pointer, `nodes` dict, cached extremes)

`self.begin` / `self.end` start as `±inf`; they are modelled as `Option Int`
(`none` before the first insertion, at which point the code's `min`/`max`
against infinity is the inserted value). -/

/-- State of an `IntervalTree` instance. -/
structure ITreeSt where
  root : ITree
  nodesKeys : List (Int × Int)
  number_of_edges : Nat
  tbegin : Option Int
  tend : Option Int
deriving DecidableEq, Repr

/-- `IntervalTree.__init__`. -/
def itEmpty : ITreeSt :=
  { root := .leaf, nodesKeys := [], number_of_edges := 0,
    tbegin := none, tend := none }

/-- `IntervalTree.add(edge)`.  Validates nothing: there is no check that
`end > begin` anywhere on this path. -/
def itAdd (st : ITreeSt) (e : IEdge) : ITreeSt :=
  let k := (e.low, e.high)
  if k ∈ st.nodesKeys then
    { st with root := appendBucket st.root k e,
              number_of_edges := st.number_of_edges + 1 }
  else
    let nd : ITree := .node e.low e.high e.high [e] 0 .leaf .leaf
    { root := insertT st.root nd,
      nodesKeys := st.nodesKeys ++ [k],
      number_of_edges := st.number_of_edges + 1,
      tbegin := some (match st.tbegin with
        | none => e.low
        | some b => min b e.low),
      tend := some (match st.tend with
        | none => e.high
        | some b => max b e.high) }

/-- `IntervalTree.add_from(edges)`. -/
def itAddFrom (st : ITreeSt) (es : List IEdge) : ITreeSt :=
  es.foldl itAdd st

/-- `low` of the leftmost node of a tree (the root itself if it has no
left child). -/
def leftmostNodeLow : ITree → Option Int
  | .leaf => none
  | .node lo _ _ _ _ l _ =>
    match leftmostNodeLow l with
    | none => some lo
    | some x => some x

/-- `high` of the rightmost node of a tree. -/
def rightmostNodeHigh : ITree → Option Int
  | .leaf => none
  | .node _ hi _ _ _ _ r =>
    match rightmostNodeHigh r with
    | none => some hi
    | some x => some x

/-- The `while traversal_node.left != None` walk of `IntervalTree.remove`
that refreshes `self.begin`: it ends at the `low` of the leftmost node,
leaving `begin` unchanged (`none` here) when the root has no left child. -/
def leftmostLow : ITree → Option Int
  | .leaf => none
  | .node _ _ _ _ _ l _ => leftmostNodeLow l

/-- The symmetric rightmost walk refreshing `self.end`. -/
def rightmostHigh : ITree → Option Int
  | .leaf => none
  | .node _ _ _ _ _ _ r => rightmostNodeHigh r

/-- `IntervalTree.remove(edge)`.  `self.nodes[(start, end)]` raises
`KeyError` when the key was never added; the node object found in the
dict is the tree node with that key (unique, and reachable from the root
for histories without a prior lossy discard).  Note that the result of
`self.discard(self.root, node)` is dropped (`discardTop`) and that the
dict entry is never deleted. -/
def itRemove (st : ITreeSt) (e : IEdge) : Except String ITreeSt :=
  let k := (e.low, e.high)
  if k ∉ st.nodesKeys then .error "KeyError"
  else if e ∉ bucketAt st.root k then .ok st
  else
    let root1 := eraseBucket st.root k e
    let root2 := if bucketAt root1 k = [] then discardTop root1 k else root1
    let nb := if st.tbegin = some e.low then
        match leftmostLow root2 with
        | none => st.tbegin
        | some x => some x
      else st.tbegin
    let ne := if st.tend = some e.high then
        match rightmostHigh root2 with
        | none => st.tend
        | some x => some x
      else st.tend
    .ok { root := root2, nodesKeys := st.nodesKeys,
          number_of_edges := st.number_of_edges - 1,
          tbegin := nb, tend := ne }

/-- Python truthiness of an optional number: `None` and `0` are falsy. -/
def falsyI : Option Int → Prop
  | none => True
  | some x => x = 0

instance (o : Option Int) : Decidable (falsyI o) := by
  cases o <;> (unfold falsyI; infer_instance)

/-- `IntervalTree.slice(interval_start, interval_end)` (the code behind
`self.tree[begin:end]`): an empty tree yields `[]`; a falsy bound
(`None` or `0`) is silently replaced by the tree-wide `self.begin` /
`self.end`; then the pruned query runs and buckets are flattened. -/
def itSlice (st : ITreeSt) (b? e? : Option Int) : List IEdge :=
  match st.root with
  | .leaf => []
  | root =>
    let b := if falsyI b? then (st.tbegin.getD 0) else b?.getD 0
    let e := if falsyI e? then (st.tend.getD 0) else e?.getD 0
    (queryT root b e).flatMap (fun n => n.2.2)

/-! ## `IntervalGraph` -/

/-- State of an `IntervalGraph`: the tree plus `self._node` and
`self._adj` (node → dict keyed by the edge 4-tuple → attribute dict).
The source stores the same attribute dict object under both endpoints;
both copies are updated in lockstep here. -/
structure IntervalGraph where
  tree : ITreeSt
  nodesAttr : List (Int × Attr)
  adj : List (Int × List (IEdge × Attr))
deriving DecidableEq, Repr

/-- `IntervalGraph.__init__`. -/
def igEmpty : IntervalGraph :=
  { tree := itEmpty, nodesAttr := [], adj := [] }

/-- Association-list lookup (Python `dict[k]` / `k in dict`). -/
def alGet {α β : Type} [DecidableEq α] (m : List (α × β)) (k : α) : Option β :=
  match m with
  | [] => none
  | (k', v) :: rest => if k' = k then some v else alGet rest k

/-- Association-list update: replaces in place, else appends (Python dict
assignment preserves insertion order). -/
def alSet {α β : Type} [DecidableEq α] (m : List (α × β)) (k : α) (v : β) :
    List (α × β) :=
  match m with
  | [] => [(k, v)]
  | (k', v') :: rest =>
    if k' = k then (k, v) :: rest else (k', v') :: alSet rest k v

/-- `dict.setdefault(k, d)` (only the resulting dict). -/
def alSetdefault {α β : Type} [DecidableEq α] (m : List (α × β)) (k : α)
    (d : β) : List (α × β) :=
  match alGet m k with
  | some _ => m
  | none => m ++ [(k, d)]

/-- `dict.setdefault(k, d)` followed by an in-place update `f` of the
value object obtained. -/
def alModify {α β : Type} [DecidableEq α] (m : List (α × β)) (k : α)
    (d : β) (f : β → β) : List (α × β) :=
  match m with
  | [] => [(k, f d)]
  | (k', v') :: rest =>
    if k' = k then (k, f v') :: rest else (k', v') :: alModify rest k d f

/-- `dict.pop(k, None)`. -/
def alPop {α β : Type} [DecidableEq α] (m : List (α × β)) (k : α) :
    List (α × β) :=
  match m with
  | [] => []
  | (k', v') :: rest => if k' = k then rest else (k', v') :: alPop rest k

/-- Python truthiness of an optional node label (`None` and `0` falsy). -/
def falsyN : Option Int → Prop := falsyI

instance (o : Option Int) : Decidable (falsyN o) := by
  unfold falsyN; infer_instance

/-- `IntervalGraph.__overlaps_or_contains(iv, begin, end)` — note the
truthiness tests `if not begin` / `if not end`, so a bound of `0` is
treated as missing. -/
def igOverlapsOrContains (iv : IEdge) (b? e? : Option Int) : Prop :=
  if falsyI b? ∧ falsyI e? then True
  else if falsyI b? then iv.low < e?.getD 0
  else if falsyI e? then iv.high > b?.getD 0
  else (iv.low < e?.getD 0 ∧ iv.high > b?.getD 0) ∨ iv.low = b?.getD 0

instance (iv : IEdge) (b? e? : Option Int) :
    Decidable (igOverlapsOrContains iv b? e?) := by
  unfold igOverlapsOrContains; infer_instance

/-- `IntervalGraph.edges(u, v, begin, end)` with `data=False`, returning
the bare edge list.  Mirrors the dispatch of lines 825–861: tree slice
when both node arguments are falsy, adjacency scan otherwise, with the
`begin > end` validation only when both bounds are truthy. -/
def igEdges (g : IntervalGraph) (u? v? : Option Int) (b? e? : Option Int) :
    Except String (List IEdge) :=
  if ¬ falsyN u? ∨ ¬ falsyN v? then
    -- node filtering; `none` models the early `return []` taken when a
    -- named node is absent from `self._adj`, which SKIPS the interval
    -- validation below
    let base? : Option (List IEdge) :=
      if ¬ falsyN u? ∧ ¬ falsyN v? then
        match alGet g.adj (u?.getD 0), alGet g.adj (v?.getD 0) with
        | some mu, some _ =>
          some ((mu.map Prod.fst).filter (fun iv => iv.v = v?.getD 0))
        | _, _ => none
      else if u? ≠ none then
        -- `elif u is not None` (reached with a falsy-but-present u too)
        match alGet g.adj (u?.getD 0) with
        | none => none
        | some mu => some (mu.map Prod.fst)
      else
        match alGet g.adj (v?.getD 0) with
        | none => none
        | some mv => some (mv.map Prod.fst)
    match base? with
    | none => .ok []
    | some base =>
      if ¬ falsyI b? ∧ ¬ falsyI e? ∧ b?.getD 0 > e?.getD 0 then
        .error "NetworkXError: interval end must be bigger than or equal to begin"
      else
        .ok (base.filter (fun iv => igOverlapsOrContains iv b? e?))
  else
    -- no node filter: the interval tree is queried
    if falsyI b? ∧ falsyI e? then .ok (itSlice g.tree none none)
    else if ¬ falsyI b? ∧ ¬ falsyI e? ∧ b?.getD 0 > e?.getD 0 then
      .error "NetworkXError: interval end must be bigger than or equal to begin"
    else .ok (itSlice g.tree b? e?)

/-- `IntervalGraph.add_edge(u, v, begin, end, **attr)`.  When the initial
`self.edges(u, v, begin, end)` query is non-empty the source executes
`self._adj[u][iedge].update(attr)` with `iedge` BEING THE RETURNED LIST,
so Python raises `TypeError: unhashable type: 'list'`.  The `except
ValueError` wrapper around `self.tree.add` is dead code: `add` validates
nothing and never raises `ValueError`. -/
def igAddEdge (g : IntervalGraph) (u v lo hi : Int) (attr : Attr) :
    Except String IntervalGraph :=
  match igEdges g (some u) (some v) (some lo) (some hi) with
  | .error s => .error s
  | .ok iedge =>
    if iedge ≠ [] then .error "TypeError: unhashable type: list"
    else
      let e : IEdge := ⟨u, v, lo, hi⟩
      let adj1 := alSetdefault g.adj u []
      let adj2 := alSetdefault adj1 v []
      let n1 := alSetdefault g.nodesAttr u []
      let n2 := alSetdefault n1 v []
      let tree' := itAdd g.tree e
      let adj3 := alModify adj2 u [] (fun m => alSet m e attr)
      let adj4 := alModify adj3 v [] (fun m => alSet m e attr)
      .ok { tree := tree', nodesAttr := n2, adj := adj4 }

/-- `IntervalGraph.__remove_iedge(iedge)` for a proper 4-tuple edge. -/
def igRemoveIedge (g : IntervalGraph) (e : IEdge) :
    Except String IntervalGraph :=
  match itRemove g.tree e with
  | .error s => .error s
  | .ok tree' =>
    let adj1 := alModify g.adj e.u [] (fun m => alPop m e)
    let adj2 := alModify adj1 e.v [] (fun m => alPop m e)
    .ok { tree := tree', nodesAttr := g.nodesAttr, adj := adj2 }

/-- `IntervalGraph.remove_edge(u, v, begin, end, overlapping)`.  In exact
mode (`overlapping=False`) the source passes the LIST returned by
`self.edges(...)` to `__remove_iedge` (the `is not None` guard never
fails), where `self.tree.remove(edge)` evaluates `edge[2]` / `edge[3]`:
an `IndexError` for lists shorter than 4, otherwise a `KeyError` because
the resulting pair of edge tuples is not a key of `self.nodes`. -/
def igRemoveEdge (g : IntervalGraph) (u v : Int) (b? e? : Option Int)
    (overlapping : Bool) : Except String IntervalGraph :=
  if ¬ overlapping then
    if b? = none ∨ e? = none then
      .error "NetworkXError: both begin and end must be defined"
    else
      match igEdges g (some u) (some v) b? e? with
      | .error s => .error s
      | .ok iedge =>
        .error (if iedge.length < 4 then "IndexError: list index out of range"
                else "KeyError")
  else
    match alGet g.adj u with
    | none => .error "KeyError"
    | some mu =>
      let l1 := if b? = none ∧ e? = none then
          (mu.map Prod.fst).filter (fun iv => iv.u = v ∨ iv.v = v)
        else []
      if ¬ falsyI b? ∧ ¬ falsyI e? ∧ b?.getD 0 > e?.getD 0 then
        .error "NetworkXError: interval end must be bigger than or equal to begin"
      else
        let l2 := (mu.map Prod.fst).filter
          (fun iv => (iv.u = v ∨ iv.v = v) ∧ igOverlapsOrContains iv b? e?)
        (l1 ++ l2).foldlM igRemoveIedge g

/-! ## `IntervalGraph.nodes` and `IntervalGraph.degree` -/

/-- `IntervalGraph.nodes(begin, end)` as the list of selected node labels
(a node is present in a window iff it is an endpoint of a returned edge;
the set is modelled as a duplicate-free list). -/
def igNodesWindow (g : IntervalGraph) (b? e? : Option Int) : List Int :=
  if b? = none ∧ e? = none then g.nodesAttr.map Prod.fst
  else ((itSlice g.tree b? e?).flatMap (fun x => [x.u, x.v])).dedup

/-- `IntervalGraph.degree(node, begin, end)` with `delta=False`:
`len(self.edges(u=node, begin=begin, end=end))`. -/
def igDegreeNode (g : IntervalGraph) (node : Int) (b? e? : Option Int) :
    Except String Nat :=
  (igEdges g (some node) none b? e?).map List.length

/-- `IntervalGraph.degree(None, begin, end)`: the mean-degree loop
`l / n` with no guard on `n = 0` — the `ZeroDivisionError` is the
`.error` case. -/
def igDegreeMean (g : IntervalGraph) (b? e? : Option Int) :
    Except String Rat :=
  let ns := igNodesWindow g b? e?
  match ns.foldlM (fun (acc : Nat) x => (igDegreeNode g x b? e?).map (acc + ·)) 0 with
  | .error s => .error s
  | .ok l =>
    if ns.length = 0 then .error "ZeroDivisionError"
    else .ok ((l : Rat) / (ns.length : Rat))

/-! ## `ImpulseGraph`

`self.tree` is a `sortedcontainers.SortedDict` from timestamp to the set
of `(u, v)` pairs at that timestamp; modelled as a key-sorted association
list with duplicate-free buckets. -/

/-- Insert-or-modify on a key-sorted association list (`SortedDict`
assignment). -/
def sdModify {β : Type} (m : List (Int × β)) (k : Int) (d : β) (f : β → β) :
    List (Int × β) :=
  match m with
  | [] => [(k, f d)]
  | (k', v') :: rest =>
    if k = k' then (k', f v') :: rest
    else if k < k' then (k, f d) :: (k', v') :: rest
    else (k', v') :: sdModify rest k d f

/-- Python `set.add`. -/
def setAdd {α : Type} [DecidableEq α] (s : List α) (x : α) : List α :=
  if x ∈ s then s else s ++ [x]

/-- `SortedDict.irange(begin, end, inclusive)`: the keys within the given
bounds in ascending order; a `None` bound is unbounded on that side. -/
def sdIrange (keys : List Int) (b? e? : Option Int) (inc : Bool × Bool) :
    List Int :=
  keys.filter (fun t =>
    (match b? with
      | none => true
      | some b => if inc.1 then decide (b ≤ t) else decide (b < t)) &&
    (match e? with
      | none => true
      | some e => if inc.2 then decide (t ≤ e) else decide (t < e)))

/-- Staged instances: deeply nested adjacency types defeat the default
instance search depth, so the chain is built explicitly. -/
instance : DecidableEq (List ((Int × Int × Int) × Attr)) := inferInstance

instance : DecidableEq (List (Int × List ((Int × Int × Int) × Attr))) :=
  inferInstance

instance :
    DecidableEq (List (Int × List (Int × List ((Int × Int × Int) × Attr)))) :=
  inferInstance

instance : Repr (List ((Int × Int × Int) × Attr)) := inferInstance

instance : Repr (List (Int × List ((Int × Int × Int) × Attr))) := inferInstance

instance :
    Repr (List (Int × List (Int × List ((Int × Int × Int) × Attr)))) :=
  inferInstance

/-- State of an `ImpulseGraph`. -/
structure ImpulseGraph where
  tree : List (Int × List (Int × Int))
  nodesAttr : List (Int × Attr)
  adj : List (Int × List (Int × List ((Int × Int × Int) × Attr)))
deriving DecidableEq, Repr

/-- `ImpulseGraph.__init__`. -/
def imEmpty : ImpulseGraph := { tree := [], nodesAttr := [], adj := [] }

/-- `ImpulseGraph.add_edge(u, v, t, **attr)`.  The edge keyed `(u, v, t)`
is assigned (not merged) into both `self._adj[u][v]` and
`self._adj[v][u]`; the two slots share one attribute dict in the source
and are updated in lockstep here. -/
def imAddEdge (g : ImpulseGraph) (u v t : Int) (attr : Attr) : ImpulseGraph :=
  { tree := sdModify g.tree t [] (fun s => setAdd s (u, v)),
    nodesAttr := alSetdefault (alSetdefault g.nodesAttr u []) v [],
    adj :=
      let a1 := alModify g.adj u []
        (fun mu => alModify mu v [] (fun inner => alSet inner (u, v, t) attr))
      alModify a1 v []
        (fun mv => alModify mv u [] (fun inner => alSet inner (u, v, t) attr)) }

/-- `ImpulseGraph.__in_interval(t, begin, end, inclusive)`: a missing
bound is `±inf`, so its side is always satisfied; the four `inclusive`
cases give `begin<=t<=end`, `begin<=t<end`, `begin<t<=end`, `begin<t<end`. -/
def imInInterval (t : Int) (b? e? : Option Int) (inc : Bool × Bool) : Bool :=
  (match b? with
    | none => true
    | some b => if inc.1 then decide (b ≤ t) else decide (b < t)) &&
  (match e? with
    | none => true
    | some e => if inc.2 then decide (t ≤ e) else decide (t < e))

/-- `ImpulseGraph.__overlaps_or_contains(iv, begin, end)` — the final
Python line is `(begin < iv[2] < end and iv[2]) or iv[2] == begin`, whose
truthiness drops any edge with timestamp `0` strictly inside the window. -/
def imOverlapsOrContains (iv : Int × Int × Int) (b? e? : Option Int) : Bool :=
  match b?, e? with
  | none, none => true
  | none, some e => decide (iv.2.2 < e)
  | some b, none => decide (iv.2.2 ≥ b)
  | some b, some e =>
    (decide (b < iv.2.2) && decide (iv.2.2 < e) && decide (iv.2.2 ≠ 0))
      || decide (iv.2.2 = b)

/-- `ImpulseGraph.__edges_node_first(u_list, v_list, begin, end)` for the
singleton node lists produced by `edges` (the `product` loop runs once).
The collected `iedges` is a Python set: modelled as a deduplicated list. -/
def imEdgesNodeFirst (g : ImpulseGraph) (u? v? : Option Int)
    (b? e? : Option Int) : Except String (List (Int × Int × Int)) :=
  let raw : List (Int × Int × Int) :=
    match u?, v? with
    | none, none =>
      g.adj.flatMap (fun p => p.2.flatMap (fun q => q.2.map Prod.fst))
    | some u, some v =>
      match alGet g.adj u with
      | none => []
      | some mu =>
        match alGet mu v with
        | none => []
        | some inner => inner.map Prod.fst
    | some u, none =>
      match alGet g.adj u with
      | none => []
      | some mu => mu.flatMap (fun q => q.2.map Prod.fst)
    | none, some v =>
      match alGet g.adj v with
      | none => []
      | some mv => mv.flatMap (fun q => q.2.map Prod.fst)
  let iedges := raw.dedup
  if b? = none ∧ e? = none then .ok iedges
  else if b? ≠ none ∧ e? ≠ none ∧ b?.getD 0 > e?.getD 0 then
    .error "NetworkXError: interval end must be bigger than or equal to begin"
  else .ok (iedges.filter (fun iv => imOverlapsOrContains iv b? e?))

/-- `ImpulseGraph.__edges_interval_first(begin, end)`: an `irange` scan
with HARD-CODED `inclusive=(True, False)`. -/
def imEdgesIntervalFirst (g : ImpulseGraph) (b? e? : Option Int) :
    Except String (List (Int × Int × Int)) :=
  if b? ≠ none ∧ e? ≠ none ∧ b?.getD 0 > e?.getD 0 then
    .error "NetworkXError: interval end must be bigger than or equal to begin"
  else
    .ok ((sdIrange (g.tree.map Prod.fst) b? e? (true, false)).flatMap
      (fun t => ((alGet g.tree t).getD []).map (fun p => (p.1, p.2, t))))

/-- `ImpulseGraph.edges(u, v, begin, end, inclusive)` with `data=False`.
The `inclusive` argument is accepted but NEVER passed on: both helper
paths use their own hard-coded boundary handling.  The "Compound" branch
requires `self._model is not None` and `_model` is `None` unless the
optional predictive model has been trained; it is out of scope here. -/
def imEdges (g : ImpulseGraph) (u? v? b? e? : Option Int)
    (_inc : Bool × Bool) : Except String (List (Int × Int × Int)) :=
  if u? = none ∧ v? = none ∧ b? = none ∧ e? = none then
    imEdgesNodeFirst g none none none none
  else if u? = none ∧ v? = none then
    imEdgesIntervalFirst g b? e?
  else
    imEdgesNodeFirst g u? v? b? e?

/-- `ImpulseGraph.has_edge(u, v, begin, end, inclusive)` — this path DOES
honour `inclusive`, via `__in_interval`. -/
def imHasEdge (g : ImpulseGraph) (u v : Int) (b? e? : Option Int)
    (inc : Bool × Bool) : Except String Bool :=
  match alGet g.adj u with
  | none => .ok false
  | some mu =>
    match alGet mu v with
    | none => .ok false
    | some inner =>
      if b? = none ∧ e? = none then .ok true
      else if ¬ falsyI b? ∧ ¬ falsyI e? ∧ b?.getD 0 > e?.getD 0 then
        .error "NetworkXError: interval end must be bigger than or equal to begin"
      else .ok (inner.any (fun p => imInInterval p.1.2.2 b? e? inc))

/-- `ImpulseGraph.__search_tree(begin, end, inclusive)`: point lookup when
`begin == end` and in the tree, plus the `irange` scan. -/
def imSearchTree (g : ImpulseGraph) (b? e? : Option Int)
    (inc : Bool × Bool) : Except String (List (Int × Int × Int)) :=
  if b? ≠ none ∧ e? ≠ none ∧ b?.getD 0 > e?.getD 0 then
    .error "NetworkXError: interval end must be bigger than or equal to begin"
  else
    let point : List (Int × Int × Int) :=
      match b? with
      | none => []
      | some b =>
        if b? = e? then
          match alGet g.tree b with
          | none => []
          | some s => s.map (fun p => (p.1, p.2, b))
        else []
    .ok (point ++ (sdIrange (g.tree.map Prod.fst) b? e? inc).flatMap
      (fun t => ((alGet g.tree t).getD []).map (fun p => (p.1, p.2, t))))

/-- `ImpulseGraph.nodes(begin, end, inclusive)` as the list of selected
node labels. -/
def imNodesWindow (g : ImpulseGraph) (b? e? : Option Int)
    (inc : Bool × Bool) : Except String (List Int) :=
  if b? = none ∧ e? = none then .ok (g.nodesAttr.map Prod.fst)
  else (imSearchTree g b? e? inc).map
    (fun es => (es.flatMap (fun x => [x.1, x.2.1])).dedup)

/-- `ImpulseGraph.degree(node, begin, end)` with `delta=False`. -/
def imDegreeNode (g : ImpulseGraph) (node : Int) (b? e? : Option Int)
    (inc : Bool × Bool) : Except String Nat :=
  (imEdges g (some node) none b? e? inc).map List.length

/-- `ImpulseGraph.degree(None, begin, end, inclusive)`: after the
`if end is None: inclusive = (inclusive[0], True)` tweak, the mean-degree
loop `l / n` with no guard on `n = 0`. -/
def imDegreeMean (g : ImpulseGraph) (b? e? : Option Int)
    (inc0 : Bool × Bool) : Except String Rat :=
  let inc := if e? = none then (inc0.1, true) else inc0
  match imNodesWindow g b? e? inc with
  | .error s => .error s
  | .ok ns =>
    match ns.foldlM (fun (acc : Nat) x =>
        (imDegreeNode g x b? e? inc).map (acc + ·)) 0 with
    | .error s => .error s
    | .ok l =>
      if ns.length = 0 then .error "ZeroDivisionError"
      else .ok ((l : Rat) / (ns.length : Rat))

/-! ## `ImpulseDiGraph` -/

/-- State of an `ImpulseDiGraph`; `edgeid` is set to `0` in `__init__`
and appears nowhere else in the class. -/
structure ImpulseDiGraph where
  tree : List (Int × List (Int × Int))
  nodesAttr : List (Int × Attr)
  pred : List (Int × List (Int × List ((Int × Int × Int) × Attr)))
  succ : List (Int × List (Int × List ((Int × Int × Int) × Attr)))
  edgeid : Nat
deriving DecidableEq, Repr

/-- `ImpulseDiGraph.__init__`. -/
def imdEmpty : ImpulseDiGraph :=
  { tree := [], nodesAttr := [], pred := [], succ := [], edgeid := 0 }

/-- `ImpulseDiGraph.add_edge(u, v, t, **attr)` (lines 184–240): the tree
bucket is a set, and the `(u, v, t)`-keyed slots of `_pred`/`_succ` are
assigned, so a repeated `(u, v, t)` replaces the attribute dict instead
of creating a second edge; `self.edgeid` is not touched. -/
def imdAddEdge (g : ImpulseDiGraph) (u v t : Int) (attr : Attr) :
    ImpulseDiGraph :=
  { tree := sdModify g.tree t [] (fun s => setAdd s (u, v)),
    nodesAttr := alSetdefault (alSetdefault g.nodesAttr u []) v [],
    pred := alModify g.pred u []
      (fun mu => alModify mu v [] (fun inner => alSet inner (u, v, t) attr)),
    succ := alModify g.succ v []
      (fun mv => alModify mv u [] (fun inner => alSet inner (u, v, t) attr)),
    edgeid := g.edgeid }

/-- `ImpulseDiGraph.__edges_node_first` for singleton node lists.  Uses
`_pred` except for the v-only case which reads `_succ`. -/
def imdEdgesNodeFirst (g : ImpulseDiGraph) (u? v? : Option Int)
    (b? e? : Option Int) : Except String (List (Int × Int × Int)) :=
  let raw : List (Int × Int × Int) :=
    match u?, v? with
    | none, none =>
      g.pred.flatMap (fun p => p.2.flatMap (fun q => q.2.map Prod.fst))
    | some u, some v =>
      match alGet g.pred u with
      | none => []
      | some mu =>
        match alGet mu v with
        | none => []
        | some inner => inner.map Prod.fst
    | some u, none =>
      match alGet g.pred u with
      | none => []
      | some mu => mu.flatMap (fun q => q.2.map Prod.fst)
    | none, some v =>
      match alGet g.succ v with
      | none => []
      | some mv => mv.flatMap (fun q => q.2.map Prod.fst)
  let iedges := raw.dedup
  if b? = none ∧ e? = none then .ok iedges
  else if b? ≠ none ∧ e? ≠ none ∧ b?.getD 0 > e?.getD 0 then
    .error "NetworkXError: interval end must be bigger than or equal to begin"
  else .ok (iedges.filter (fun iv => imOverlapsOrContains iv b? e?))

/-- `ImpulseDiGraph.edges` with `data=False` (the `_model is None`
dispatch, as for the undirected class). -/
def imdEdges (g : ImpulseDiGraph) (u? v? b? e? : Option Int) :
    Except String (List (Int × Int × Int)) :=
  if u? = none ∧ v? = none ∧ b? = none ∧ e? = none then
    imdEdgesNodeFirst g none none none none
  else if u? = none ∧ v? = none then
    if b? ≠ none ∧ e? ≠ none ∧ b?.getD 0 > e?.getD 0 then
      .error "NetworkXError: interval end must be bigger than or equal to begin"
    else
      .ok ((sdIrange (g.tree.map Prod.fst) b? e? (true, false)).flatMap
        (fun t => ((alGet g.tree t).getD []).map (fun p => (p.1, p.2, t))))
  else
    imdEdgesNodeFirst g u? v? b? e?

/-! ## `count_temporal_motif` (`dynetworkx/algorithms/count_temporal_motif.py`)

The enumeration in `__extend_subgraph` picks extension vertices with
`random.choice`; the enumerated SET of connected `k`-subgraphs does not
depend on the pick order (each subset is produced exactly once per run,
whatever the order), so the embedding picks the least remaining vertex.
Python `set` iteration orders are likewise replaced by ascending order;
the final counts are insensitive to these orders because same-timestamp
batches are processed additively.  The `TypeError` raised on non
`ImpulseDiGraph` inputs is enforced by the Lean argument type.  Only the
first two returned components (total count, count dictionary) are
embedded; the claims do not touch the participation dataframe. -/

/-- Sequence-count dictionary: flattened node tuple → count. -/
abbrev Counts : Type := List (List Int × Int)

/-- Ascending insertion sort on `Int`. -/
def sortIntAsc (l : List Int) : List Int :=
  l.foldr (fun x acc =>
    let rec ins : List Int → List Int
      | [] => [x]
      | y :: ys => if y < x then y :: ins ys else x :: y :: ys
    ins acc) []

/-- All `(u, v, t)` edge tuples of an `ImpulseDiGraph` (via `_pred`). -/
def imdAllEdges (g : ImpulseDiGraph) : List (Int × Int × Int) :=
  (g.pred.flatMap (fun p => p.2.flatMap (fun q => q.2.map Prod.fst))).dedup

/-- Node list of `Graph(G.to_networkx_graph())` (ascending; see header
note on iteration order): the endpoints of all impulse edges. -/
def staticNodes (g : ImpulseDiGraph) : List Int :=
  sortIntAsc (((imdAllEdges g).flatMap (fun e => [e.1, e.2.1])).dedup)

/-- Neighbor list in the undirected loop-collapsed static graph. -/
def staticNbrs (g : ImpulseDiGraph) (v : Int) : List Int :=
  sortIntAsc ((((imdAllEdges g).filterMap (fun e =>
    if e.1 = v then some e.2.1 else if e.2.1 = v then some e.1 else none)).dedup).filter
      (fun w => w ≠ v ∨ (v, v) ∈ (imdAllEdges g).map (fun e => (e.1, e.2.1))))

/-- `__extend_subgraph`: one recursive step both yields completed
subgraphs and walks the `while v_extension` loop (head = the chosen
element, tail = the loop's continuation).  `fuel` strictly exceeds the
recursion depth for every evaluated input. -/
def extendStep (nbrs : Int → List Int) (sizeK : Nat) (v : Int) :
    Nat → List Int → List Int → List (List Int)
  | 0, _, _ => []
  | Nat.succ fuel, vsub, vext =>
    if vsub.length = sizeK then [vsub]
    else
      match vext with
      | [] => []
      | w :: rest =>
        let v2ext := sortIntAsc
          ((rest ++ ((nbrs w).filter (fun x => x > v ∧ x ∉ vsub))).dedup)
        extendStep nbrs sizeK v fuel (vsub ++ [w]) v2ext
          ++ extendStep nbrs sizeK v fuel vsub rest

/-- `__enumerate_subgraphs(g, size_k)`. -/
def enumerateSubs (nbrs : Int → List Int) (sizeK : Nat)
    (nodesAsc : List Int) : List (List Int) :=
  nodesAsc.flatMap (fun v =>
    extendStep nbrs sizeK v 64 [v] ((nbrs v).filter (fun x => x > v)))

/-- `itertools.combinations(nodes, 2)` in list order. -/
def pairsOf : List Int → List (Int × Int)
  | [] => []
  | x :: rest => rest.map (fun y => (x, y)) ++ pairsOf rest

/-- `G.edges(u, v)`: the `_pred[u][v]` key set. -/
def imdEdgesPair (g : ImpulseDiGraph) (u v : Int) : List (Int × Int × Int) :=
  match alGet g.pred u with
  | none => []
  | some mu => ((alGet mu v).getD []).map Prod.fst

/-- Gathering of all impulse edges inside one enumerated subgraph
(pairs in both directions, then self-loops). -/
def subEdges (g : ImpulseDiGraph) (sub : List Int) : List (Int × Int × Int) :=
  (pairsOf sub).flatMap (fun p => imdEdgesPair g p.1 p.2 ++ imdEdgesPair g p.2 p.1)
    ++ sub.flatMap (fun u => imdEdgesPair g u u)

/-- Stable ascending sort by timestamp (`sorted(edges, key=lambda x: x[2])`). -/
def sortByT (l : List (Int × Int × Int)) : List (Int × Int × Int) :=
  l.foldr (fun x acc =>
    let rec ins : List (Int × Int × Int) → List (Int × Int × Int)
      | [] => [x]
      | y :: ys => if y.2.2 < x.2.2 then y :: ins ys else x :: y :: ys
    ins acc) []

/-- Stable `sorted(keys, key=len, reverse=True)`. -/
def sortLenDesc (l : List (List Int)) : List (List Int) :=
  l.foldr (fun x acc =>
    let rec ins : List (List Int) → List (List Int)
      | [] => [x]
      | y :: ys => if y.length > x.length then y :: ins ys else x :: y :: ys
    ins acc) []

/-- Stable `sorted(keys, key=len)`. -/
def sortLenAsc (l : List (List Int)) : List (List Int) :=
  l.foldr (fun x acc =>
    let rec ins : List (List Int) → List (List Int)
      | [] => [x]
      | y :: ys => if y.length < x.length then y :: ins ys else x :: y :: ys
    ins acc) []

/-- Python tuple comparison (lexicographic, shorter prefix first). -/
def lexListLe : List Int → List Int → Bool
  | [], _ => true
  | _ :: _, [] => false
  | x :: xs, y :: ys =>
    if x < y then true else if y < x then false else lexListLe xs ys

/-- `sorted(counts.keys())`. -/
def sortKeysLex (l : List (List Int)) : List (List Int) :=
  l.foldr (fun x acc =>
    let rec ins : List (List Int) → List (List Int)
      | [] => [x]
      | y :: ys => if lexListLe y x ∧ ¬ (x = y) then y :: ins ys else x :: y :: ys
    ins acc) []

/-- `__increment_counts(edges, motif_length, counts)`. -/
def incCounts (batch : List (Int × Int)) (motifLength : Nat)
    (counts : Counts) : Counts :=
  let prefixKeys := sortLenDesc (counts.map Prod.fst)
  let c1 := prefixKeys.foldl (fun acc p =>
    if p.length < 2 * motifLength then
      batch.foldl (fun acc2 e =>
        let key := p ++ [e.1, e.2]
        let acc3 := match alGet acc2 key with
          | none => alSet acc2 key (0 : Int)
          | some _ => acc2
        alSet acc3 key ((alGet acc3 key).getD 0 + (alGet acc3 p).getD 0)) acc
    else acc) counts
  batch.foldl (fun acc e =>
    let key := [e.1, e.2]
    let acc3 := match alGet acc key with
      | none => alSet acc key (0 : Int)
      | some _ => acc
    alSet acc3 key ((alGet acc3 key).getD 0 + 1)) c1

/-- `__decrement_counts(edges, motif_length, counts)`; the guard
`if counts.get(e + suffix):` skips missing AND zero counts. -/
def decCounts (batch : List (Int × Int)) (motifLength : Nat)
    (counts : Counts) : Counts :=
  let sufKeys := sortLenAsc (counts.map Prod.fst)
  let c1 := batch.foldl (fun acc e =>
    let key := [e.1, e.2]
    alSet acc key ((alGet acc key).getD 0 - 1)) counts
  sufKeys.foldl (fun acc suf =>
    if suf.length < 2 * (motifLength - 1) then
      batch.foldl (fun acc2 e =>
        let key := e.1 :: e.2 :: suf
        match alGet acc2 key with
        | none => acc2
        | some c =>
          if c = 0 then acc2
          else alSet acc2 key (c - (alGet acc2 suf).getD 0)) acc
    else acc) c1

/-- The run of same-timestamp edges starting at index `i`, as the list of
`(u, v)` pairs plus the index after the run. -/
def collectBatch (edges : List (Int × Int × Int)) (i : Nat) :
    List (Int × Int) × Nat :=
  match edges.get? i with
  | none => ([], i)
  | some e0 =>
    let run := (edges.drop i).takeWhile (fun x => x.2.2 = e0.2.2)
    (run.map (fun x => (x.1, x.2.1)), i + run.length)

/-- The inner `while edges[start][2] + delta < edges[end][2]` loop. -/
def advanceStart (edges : List (Int × Int × Int)) (motifLength : Nat)
    (delta : Int) : Nat → Nat → Nat → Counts → Nat × Counts
  | 0, s, _, c => (s, c)
  | Nat.succ fuel, s, en, c =>
    match edges.get? s, edges.get? en with
    | some es, some ee =>
      if es.2.2 + delta < ee.2.2 then
        let (batch, s') := collectBatch edges s
        advanceStart edges motifLength delta fuel s' en
          (decCounts batch motifLength c)
      else (s, c)
    | _, _ => (s, c)

/-- The outer `while end < len(edges)` sweep. -/
def sweepLoop (edges : List (Int × Int × Int)) (motifLength : Nat)
    (delta : Int) : Nat → Nat → Nat → Counts → Counts
  | 0, _, _, c => c
  | Nat.succ fuel, s, en, c =>
    if en ≥ edges.length then c
    else
      let (s', c1) := advanceStart edges motifLength delta
        (edges.length + 1) s en c
      let (batch, en') := collectBatch edges en
      sweepLoop edges motifLength delta fuel s' en' (incCounts batch motifLength c1)

/-- The motif isomorphism walk: positions vs. matched nodes, building a
one-to-one map.  `if node_map.get(node_sequence[n]):` tests the mapped
VALUE for truthiness, so an actual node labelled `0` behaves as unmapped. -/
def isoGo : List Int → List Int → List (Int × Int) → Bool
  | [], _, _ => true
  | _ :: _, [], _ => false
  | p :: ps, k :: ks, m =>
    match alGet m p with
    | some a =>
      if a ≠ 0 then (if a = k then isoGo ps ks m else false)
      else
        if k ∈ m.map Prod.snd then false else isoGo ps ks (alSet m p k)
    | none =>
      if k ∈ m.map Prod.snd then false else isoGo ps ks (alSet m p k)

/-- Per-subgraph processing of `count_temporal_motif`: gather and sort
the subgraph's impulse edges, sweep the `delta` window, then merge the
isomorphic full-length sequences into the running `total_counts` (a
Python dict assignment, hence overwrite). -/
def subgraphContrib (g : ImpulseDiGraph) (motifLength : Nat) (delta : Int)
    (nodeSeq : List Int) (sub : List Int) (tot : Counts) : Counts :=
  let edges := sortByT (subEdges g sub)
  let counts := sweepLoop edges motifLength delta (edges.length + 1) 0 0 []
  (sortKeysLex (counts.map Prod.fst)).foldl (fun acc k =>
    if k.length = 2 * motifLength then
      match alGet counts k with
      | none => acc
      | some c =>
        if c = 0 then acc
        else if isoGo nodeSeq k [] then alSet acc k c else acc
    else acc) tot

/-- `count_temporal_motif(G, sequence, delta)`: total count and the
count dictionary. -/
def countTemporalMotif (g : ImpulseDiGraph) (sequence : List (Int × Int))
    (delta : Int) : Int × Counts :=
  let nodeSeq := sequence.flatMap (fun e => [e.1, e.2])
  let sizeK := (sequence.flatMap (fun e => [e.1, e.2])).dedup.length
  let nbrs := staticNbrs g
  let subs := enumerateSubs nbrs sizeK (staticNodes g)
  let tot := subs.foldl (fun acc sub =>
    subgraphContrib g sequence.length delta nodeSeq sub acc) []
  ((tot.map Prod.snd).sum, tot)

/-! ## `SnapshotGraph` (`dynetworkx/classes/snapshotgraph.py`)

The externally-typed static graphs stored as snapshot values are modelled
by identifiers into a heap of node lists, so that Python object identity
and `copy.deepcopy` are observable. -/

/-- State of a `SnapshotGraph`: the `SortedDict` from `(start, end)` keys
to graph objects (identifiers), the object heap, and the next fresh id. -/
structure SnapshotGraph where
  snapshots : List ((Int × Int) × Nat)
  heap : List (Nat × List Int)
  fresh : Nat
deriving DecidableEq, Repr

/-- `SortedDict` assignment keyed by `(start, end)` (lexicographic). -/
def sgInsertKey (m : List ((Int × Int) × Nat)) (k : Int × Int) (gid : Nat) :
    List ((Int × Int) × Nat) :=
  match m with
  | [] => [(k, gid)]
  | (k', g') :: rest =>
    if k = k' then (k, gid) :: rest
    else if lexLt k k' then (k, gid) :: (k', g') :: rest
    else (k', g') :: sgInsertKey rest k gid

/-- `SnapshotGraph.insert(graph, start, end)` (interval form). -/
def sgInsert (sg : SnapshotGraph) (gid : Nat) (s e : Int) :
    Except String SnapshotGraph :=
  if s > e then
    .error "ValueError: Start of the interval must be lower or equal to end"
  else .ok { sg with snapshots := sgInsertKey sg.snapshots (s, e) gid }

/-- `copy.deepcopy(g)`: allocate a fresh object with the same nodes. -/
def sgDeepcopy (sg : SnapshotGraph) (gid : Nat) : SnapshotGraph × Nat :=
  ({ sg with heap := sg.heap ++ [(sg.fresh, (alGet sg.heap gid).getD [])],
             fresh := sg.fresh + 1 }, sg.fresh)

/-- `self.snapshots.bisect_left((x,))`: the number of keys whose first
component is below `x` (`(x,)` sorts before every `(x, b)`). -/
def sgBisectStart (keys : List (Int × Int)) (x : Int) : Nat :=
  (keys.filter (fun k => k.1 < x)).length

/-- `SortedDict.popitem(i)`. -/
def sgPopIdx (sg : SnapshotGraph) (i : Nat) :
    Option ((Int × Int) × Nat) × SnapshotGraph :=
  (sg.snapshots.get? i,
   { sg with snapshots := sg.snapshots.take i ++ sg.snapshots.drop (i + 1) })

/-- `SnapshotGraph._get(start=…, end=…, split_overlaps=True)` (interval
retrieval as consumed by `add_nodes_from`): returns the mutated snapshot
graph and the ids of the selected graphs (`graphs[min_idx:max_idx]`). -/
def sgGetSplit (sg : SnapshotGraph) (s? e? : Option Int) :
    Except String (SnapshotGraph × List Nat) := do
  let (sg1, minIdx) ← (do
    match s? with
    | none => pure (sg, 0)
    | some s =>
      let mi := sgBisectStart (sg.snapshots.map Prod.fst) s
      if mi > 0 then
        match (sg.snapshots.map Prod.fst).get? mi with
        | none =>
          -- `self.snapshots.keys()[min_idx]` out of range
          .error "IndexError: list index out of range"
        | some kmi =>
          if s < kmi.1 then do
            match sgPopIdx sg (mi - 1) with
            | (none, _) => .error "IndexError: list index out of range"
            | (some (key, g), sgA) => do
              let sgB ← sgInsert sgA g key.1 s
              let (sgC, g2) := sgDeepcopy sgB g
              let sgD ← sgInsert sgC g2 s key.2
              pure (sgD, mi)
          else pure (sg, mi)
      else pure (sg, mi))
  let (sg2, maxIdx) ← (do
    match e? with
    | none => pure (sg1, sg1.snapshots.length)
    | some e =>
      let ma := sgBisectStart (sg1.snapshots.map Prod.fst) e
      match (sg1.snapshots.map Prod.fst).get? ma with
      | none => pure (sg1, ma)
      | some kma =>
        -- `if split_overlaps and max_idx < len(...) and end < keys[max_idx][1]`
        if e < kma.2 then do
          match sgPopIdx sg1 ma with
          | (none, _) => .error "IndexError: list index out of range"
          | (some (key, g), sgA) => do
            let sgB ← sgInsert sgA g key.1 e
            let (sgC, g2) := sgDeepcopy sgB g
            let sgD ← sgInsert sgC g2 e key.2
            pure (sgD, ma)
        else pure (sg1, ma))
  pure (sg2, ((sg2.snapshots.map Prod.snd).drop minIdx).take (maxIdx - minIdx))

/-- `networkx.Graph.add_nodes_from(nbunch)` on a heap object: append the
labels not already present, in order. -/
def heapAddNodes (h : List (Nat × List Int)) (gid : Nat) (nbunch : List Int) :
    List (Nat × List Int) :=
  alModify h gid [] (fun ns =>
    nbunch.foldl (fun acc n => if n ∈ acc then acc else acc ++ [n]) ns)

/-- `SnapshotGraph.add_nodes_from(nbunch, start=…, end=…)` (interval
mode, which passes `split_overlaps=True` to `_get`). -/
def sgAddNodesFrom (sg : SnapshotGraph) (nbunch : List Int)
    (s? e? : Option Int) : Except String SnapshotGraph := do
  let (sg1, gids) ← sgGetSplit sg s? e?
  pure { sg1 with heap := gids.foldl (fun h gid => heapAddNodes h gid nbunch) sg1.heap }

/-! ## Invariants of insert-built interval trees

`Shape` is the search-tree discipline (strict lexicographic order on the
`(low, high)` keys, bucket coherence, strictly positive durations),
`MaxOk` the `max`-augmentation discipline (every stored `max` equals the
`updateMax` recomputation), `HgtOk` non-negativity of stored heights.
All three hold for every tree built by `IntervalTree.add` from valid
edges, and together they make the pruned `query` complete. -/

/-- Search-tree order, bucket coherence and interval validity. -/
def Shape : ITree → Prop
  | .leaf => True
  | .node lo hi _ bu _ l r =>
      (∀ k ∈ keysOf l, lexLt k (lo, hi)) ∧
      (∀ k ∈ keysOf r, lexLt (lo, hi) k) ∧
      (∀ x ∈ bu, x.low = lo ∧ x.high = hi) ∧
      lo < hi ∧ Shape l ∧ Shape r

/-- Every stored `max` field is the `updateMax` recomputation. -/
def MaxOk : ITree → Prop
  | .leaf => True
  | .node _ hi m _ _ l r => m = localMax hi l r ∧ MaxOk l ∧ MaxOk r

/-- Every stored height is non-negative. -/
def HgtOk : ITree → Prop
  | .leaf => True
  | .node _ _ _ _ h l r => 0 ≤ h ∧ HgtOk l ∧ HgtOk r

theorem lexLt_trans {a b c : Int × Int} (h1 : lexLt a b) (h2 : lexLt b c) :
    lexLt a c := by
  rcases a with ⟨a1, a2⟩; rcases b with ⟨b1, b2⟩; rcases c with ⟨c1, c2⟩
  simp only [lexLt] at *
  omega

theorem lexLt_of_not_of_ne {a b : Int × Int} (h1 : ¬ lexLt a b) (h2 : a ≠ b) :
    lexLt b a := by
  rcases a with ⟨a1, a2⟩; rcases b with ⟨b1, b2⟩
  simp only [lexLt, not_or, not_and, Prod.mk.injEq] at *
  by_cases hab : a1 = b1
  · subst hab
    rcases h2 with h2
    right
    refine ⟨rfl, ?_⟩
    have := h1.2 rfl
    have hne : a2 ≠ b2 := by
      intro hc
      exact h2 (by simp [hc])
    omega
  · left
    omega

theorem getHeight_nonneg {t : ITree} (h : HgtOk t) : 0 ≤ t.getHeight := by
  cases t with
  | leaf => simp [ITree.getHeight]
  | node lo hi m bu hg l r =>
    simp only [HgtOk] at h
    simpa [ITree.getHeight] using h.1

theorem ne_leaf_of_height_pos {t : ITree} (h : 0 < t.getHeight) :
    t ≠ .leaf := by
  intro hc
  subst hc
  simp [ITree.getHeight] at h

/-- The recomputed `max` dominates the node's own `high`. -/
theorem localMax_ge_hi (hi : Int) (l r : ITree) : hi ≤ localMax hi l r := by
  cases l <;> cases r <;> simp [localMax]

/-- The recomputed `max` dominates the left child's stored `max`. -/
theorem localMax_ge_left (hi : Int) {l : ITree} (r : ITree) (h : l ≠ .leaf) :
    l.maxvOf ≤ localMax hi l r := by
  cases l with
  | leaf => exact absurd rfl h
  | node a b c d e f g => cases r <;> simp [localMax, ITree.maxvOf]

/-- The recomputed `max` dominates the right child's stored `max`. -/
theorem localMax_ge_right (hi : Int) (l : ITree) {r : ITree} (h : r ≠ .leaf) :
    r.maxvOf ≤ localMax hi l r := by
  cases r with
  | leaf => exact absurd rfl h
  | node a b c d e f g => cases l <;> simp [localMax, ITree.maxvOf]

/-- A node whose key list is inhabited is not `None`. -/
theorem ne_leaf_of_mem_keysOf {t : ITree} {k : Int × Int}
    (h : k ∈ keysOf t) : t ≠ .leaf := by
  intro hc; subst hc; simp [keysOf] at h

/-- Under `MaxOk`, every `high` in the tree is at most the root `max`. -/
theorem maxv_bound {t : ITree} (hm : MaxOk t) :
    ∀ k ∈ keysOf t, k.2 ≤ t.maxvOf := by
  induction t with
  | leaf => intro k hk; simp [keysOf] at hk
  | node lo hi m bu hg l r ihl ihr =>
    intro k hk
    simp only [MaxOk] at hm
    obtain ⟨hmeq, hml, hmr⟩ := hm
    simp only [keysOf, List.mem_append, List.mem_cons] at hk
    simp only [ITree.maxvOf]
    subst hmeq
    rcases hk with hk | hk | hk
    · have h1 := ihl hml k hk
      have h2 := localMax_ge_left hi r (ne_leaf_of_mem_keysOf hk)
      omega
    · subst hk
      simpa using localMax_ge_hi hi l r
    · have h1 := ihr hmr k hk
      have h2 := localMax_ge_right hi l (ne_leaf_of_mem_keysOf hk)
      omega

/-- Keys of the nodes list. -/
theorem keysOf_of_nodesOf {t : ITree} {n : Int × Int × List IEdge}
    (h : n ∈ nodesOf t) : (n.1, n.2.1) ∈ keysOf t := by
  induction t with
  | leaf => simp [nodesOf] at h
  | node lo hi m bu hg l r ihl ihr =>
    simp only [nodesOf, List.mem_append, List.mem_cons] at h
    simp only [keysOf, List.mem_append, List.mem_cons]
    rcases h with h | h | h
    · exact Or.inl (ihl h)
    · subst h; simp
    · exact Or.inr (Or.inr (ihr h))

/-- An edge is in the flattened tree iff it is in some node's bucket. -/
theorem allEdges_iff_nodesOf {t : ITree} {x : IEdge} :
    x ∈ allEdges t ↔ ∃ n ∈ nodesOf t, x ∈ n.2.2 := by
  induction t with
  | leaf => simp [allEdges, nodesOf]
  | node lo hi m bu hg l r ihl ihr =>
    simp only [allEdges, nodesOf, List.mem_append, List.mem_cons, ihl, ihr]
    constructor
    · rintro ((⟨n, hn, hx⟩ | hx) | ⟨n, hn, hx⟩)
      · exact ⟨n, Or.inl hn, hx⟩
      · exact ⟨(lo, hi, bu), Or.inr (Or.inl rfl), hx⟩
      · exact ⟨n, Or.inr (Or.inr hn), hx⟩
    · rintro ⟨n, (hn | hn | hn), hx⟩
      · exact Or.inl (Or.inl ⟨n, hn, hx⟩)
      · subst hn; exact Or.inl (Or.inr hx)
      · exact Or.inr ⟨n, hn, hx⟩

/-- Under `Shape`, buckets agree with their node keys. -/
theorem bucket_coherent {t : ITree} (hs : Shape t) :
    ∀ n ∈ nodesOf t, ∀ x ∈ n.2.2, x.low = n.1 ∧ x.high = n.2.1 := by
  induction t with
  | leaf => intro n hn; simp [nodesOf] at hn
  | node lo hi m bu hg l r ihl ihr =>
    intro n hn x hx
    simp only [Shape] at hs
    obtain ⟨_, _, hbu, _, hsl, hsr⟩ := hs
    simp only [nodesOf, List.mem_append, List.mem_cons] at hn
    rcases hn with hn | hn | hn
    · exact ihl hsl n hn x hx
    · subst hn; exact hbu x hx
    · exact ihr hsr n hn x hx

/-- Under `Shape`, every stored key is a strictly positive interval. -/
theorem keys_valid {t : ITree} (hs : Shape t) :
    ∀ k ∈ keysOf t, k.1 < k.2 := by
  induction t with
  | leaf => intro k hk; simp [keysOf] at hk
  | node lo hi m bu hg l r ihl ihr =>
    intro k hk
    simp only [Shape] at hs
    obtain ⟨_, _, _, hv, hsl, hsr⟩ := hs
    simp only [keysOf, List.mem_append, List.mem_cons] at hk
    rcases hk with hk | hk | hk
    · exact ihl hsl k hk
    · subst hk; exact hv
    · exact ihr hsr k hk

theorem getHeight_leaf : (ITree.leaf).getHeight = 0 := rfl

theorem getHeight_node (lo hi m : Int) (bu : List IEdge) (h : Int)
    (l r : ITree) : (ITree.node lo hi m bu h l r).getHeight = h := rfl

theorem keysOf_updateMax (t : ITree) : keysOf (updateMax t) = keysOf t := by
  cases t <;> simp [updateMax, keysOf]

theorem allEdges_updateMax (t : ITree) : allEdges (updateMax t) = allEdges t := by
  cases t <;> simp [updateMax, allEdges]

theorem getHeight_updateMax (t : ITree) :
    ITree.getHeight (updateMax t) = ITree.getHeight t := by
  cases t <;> simp [updateMax, ITree.getHeight]

theorem updateMax_ne_leaf {t : ITree} (h : t ≠ .leaf) : updateMax t ≠ .leaf := by
  cases t with
  | leaf => exact absurd rfl h
  | node a b c d e f g => simp [updateMax]

theorem shape_updateMax {t : ITree} (hs : Shape t) : Shape (updateMax t) := by
  cases t with
  | leaf => exact hs
  | node lo hi m bu hg l r => simpa [updateMax, Shape] using hs

theorem hgtOk_updateMax {t : ITree} (hh : HgtOk t) : HgtOk (updateMax t) := by
  cases t with
  | leaf => exact hh
  | node lo hi m bu hg l r => simpa [updateMax, HgtOk] using hh

theorem maxOk_updateMax {lo hi m : Int} {bu : List IEdge} {hg : Int}
    {l r : ITree} (hl : MaxOk l) (hr : MaxOk r) :
    MaxOk (updateMax (.node lo hi m bu hg l r)) := by
  simp [updateMax, MaxOk]
  exact ⟨hl, hr⟩

theorem leftRotate_ne_leaf {t : ITree} (h : t ≠ .leaf) :
    leftRotate t ≠ .leaf := by
  cases t with
  | leaf => exact absurd rfl h
  | node lo hi m bu hg l r =>
    cases r with
    | leaf => simp [leftRotate]
    | node rl rh rm rb rhg rt rr =>
      simp only [leftRotate]
      exact updateMax_ne_leaf (by simp)

theorem rightRotate_ne_leaf {t : ITree} (h : t ≠ .leaf) :
    rightRotate t ≠ .leaf := by
  cases t with
  | leaf => exact absurd rfl h
  | node lo hi m bu hg l r =>
    cases l with
    | leaf => simp [rightRotate]
    | node ll lh lm lb lhg lt lr =>
      simp only [rightRotate]
      exact updateMax_ne_leaf (by simp)

theorem keysOf_leftRotate (t : ITree) : keysOf (leftRotate t) = keysOf t := by
  cases t with
  | leaf => rfl
  | node lo hi m bu hg l r =>
    cases r with
    | leaf => rfl
    | node rl rh rm rb rhg rt rr =>
      simp [leftRotate, keysOf_updateMax, keysOf]

theorem keysOf_rightRotate (t : ITree) : keysOf (rightRotate t) = keysOf t := by
  cases t with
  | leaf => rfl
  | node lo hi m bu hg l r =>
    cases l with
    | leaf => rfl
    | node ll lh lm lb lhg lt lr =>
      simp [rightRotate, keysOf_updateMax, keysOf]

theorem allEdges_leftRotate (t : ITree) :
    allEdges (leftRotate t) = allEdges t := by
  cases t with
  | leaf => rfl
  | node lo hi m bu hg l r =>
    cases r with
    | leaf => rfl
    | node rl rh rm rb rhg rt rr =>
      simp [leftRotate, allEdges_updateMax, allEdges]

theorem allEdges_rightRotate (t : ITree) :
    allEdges (rightRotate t) = allEdges t := by
  cases t with
  | leaf => rfl
  | node lo hi m bu hg l r =>
    cases l with
    | leaf => rfl
    | node ll lh lm lb lhg lt lr =>
      simp [rightRotate, allEdges_updateMax, allEdges]

theorem shape_leftRotate {t : ITree} (hs : Shape t) : Shape (leftRotate t) := by
  cases t with
  | leaf => exact hs
  | node lo hi m bu hg l r =>
    cases r with
    | leaf => exact hs
    | node rl rh rm rb rhg rt rr =>
      simp only [Shape, keysOf, List.mem_append, List.mem_cons] at hs
      obtain ⟨hbl, hbr, hbu, hv, hsl, hsrl, hsrr, hsbu, hsv, hsrt, hsrrS⟩ := hs
      have hroot_lt : lexLt (lo, hi) (rl, rh) := hbr (rl, rh) (Or.inr (Or.inl rfl))
      simp only [leftRotate, Shape, keysOf_updateMax, keysOf, List.mem_append,
        List.mem_cons, updateMax]
      refine ⟨?_, ?_, hsbu, hsv, ⟨?_, ?_, hbu, hv, hsl, hsrt⟩, hsrrS⟩
      · intro k hk
        rcases hk with hk | hk | hk
        · exact lexLt_trans (hbl k hk) hroot_lt
        · subst hk; exact hroot_lt
        · exact hsrl k hk
      · intro k hk
        exact hsrr k hk
      · intro k hk
        exact hbl k hk
      · intro k hk
        exact hbr k (Or.inl hk)

theorem shape_rightRotate {t : ITree} (hs : Shape t) :
    Shape (rightRotate t) := by
  cases t with
  | leaf => exact hs
  | node lo hi m bu hg l r =>
    cases l with
    | leaf => exact hs
    | node ll lh lm lb lhg lt lr =>
      simp only [Shape, keysOf, List.mem_append, List.mem_cons] at hs
      obtain ⟨hbl, hbr, hbu, hv, ⟨hll, hlr, hlbu, hlv, hslt, hslr⟩, hsr⟩ := hs
      have hroot_gt : lexLt (ll, lh) (lo, hi) := hbl (ll, lh) (Or.inr (Or.inl rfl))
      simp only [rightRotate, Shape, keysOf_updateMax, keysOf, List.mem_append,
        List.mem_cons, updateMax]
      refine ⟨?_, ?_, hlbu, hlv, hslt, ⟨?_, hbr, hbu, hv, hslr, hsr⟩⟩
      · intro k hk
        exact hll k hk
      · intro k hk
        rcases hk with hk | hk | hk
        · exact hlr k hk
        · subst hk; exact hroot_gt
        · exact lexLt_trans hroot_gt (hbr k hk)
      · intro k hk
        exact hbl k (Or.inr (Or.inr hk))

theorem hgtOk_leftRotate {t : ITree} (hh : HgtOk t) : HgtOk (leftRotate t) := by
  cases t with
  | leaf => exact hh
  | node lo hi m bu hg l r =>
    cases r with
    | leaf => exact hh
    | node rl rh rm rb rhg rt rr =>
      simp only [HgtOk] at hh
      obtain ⟨_, hhl, _, hhrt, hhrr⟩ := hh
      have h1 : (0 : Int) ≤ l.getHeight := getHeight_nonneg hhl
      have h2 : (0 : Int) ≤ rt.getHeight := getHeight_nonneg hhrt
      have h3 : (0 : Int) ≤ rr.getHeight := getHeight_nonneg hhrr
      simp only [leftRotate, updateMax, HgtOk, getHeight_updateMax]
      refine ⟨?_, ⟨?_, hhl, hhrt⟩, hhrr⟩ <;>
        (try simp only [getHeight_node]) <;> omega

theorem hgtOk_rightRotate {t : ITree} (hh : HgtOk t) : HgtOk (rightRotate t) := by
  cases t with
  | leaf => exact hh
  | node lo hi m bu hg l r =>
    cases l with
    | leaf => exact hh
    | node ll lh lm lb lhg lt lr =>
      simp only [HgtOk] at hh
      obtain ⟨_, ⟨_, hhlt, hhlr⟩, hhr⟩ := hh
      have h1 : (0 : Int) ≤ lr.getHeight := getHeight_nonneg hhlr
      have h2 : (0 : Int) ≤ r.getHeight := getHeight_nonneg hhr
      have h3 : (0 : Int) ≤ lt.getHeight := getHeight_nonneg hhlt
      simp only [rightRotate, updateMax, HgtOk, getHeight_updateMax]
      refine ⟨?_, hhlt, ⟨?_, hhlr, hhr⟩⟩ <;>
        (try simp only [getHeight_node]) <;> omega

theorem maxOk_leftRotate {lo hi m : Int} {bu : List IEdge} {hg : Int}
    {l r : ITree} (hl : MaxOk l) (hr : MaxOk r) (hn : r ≠ .leaf) :
    MaxOk (leftRotate (.node lo hi m bu hg l r)) := by
  cases r with
  | leaf => exact absurd rfl hn
  | node rl rh rm rb rhg rt rr =>
    simp only [MaxOk] at hr
    obtain ⟨_, hrt, hrr⟩ := hr
    simp only [leftRotate]
    exact maxOk_updateMax (maxOk_updateMax hl hrt) hrr

theorem maxOk_rightRotate {lo hi m : Int} {bu : List IEdge} {hg : Int}
    {l r : ITree} (hl : MaxOk l) (hr : MaxOk r) (hn : l ≠ .leaf) :
    MaxOk (rightRotate (.node lo hi m bu hg l r)) := by
  cases l with
  | leaf => exact absurd rfl hn
  | node ll lh lm lb lhg lt lr =>
    simp only [MaxOk] at hl
    obtain ⟨_, hlt, hlr⟩ := hl
    simp only [rightRotate]
    exact maxOk_updateMax hlt (maxOk_updateMax hlr hr)

theorem maxOk_leftRotate_full {t : ITree} (hm : MaxOk t) :
    MaxOk (leftRotate t) := by
  cases t with
  | leaf => exact hm
  | node lo hi m bu hg l r =>
    cases r with
    | leaf => simpa [leftRotate] using hm
    | node rl rh rm rb rhg rt rr =>
      simp only [MaxOk] at hm
      refine maxOk_leftRotate hm.2.1 ?_ (by simp)
      simp only [MaxOk]
      exact hm.2.2

theorem maxOk_rightRotate_full {t : ITree} (hm : MaxOk t) :
    MaxOk (rightRotate t) := by
  cases t with
  | leaf => exact hm
  | node lo hi m bu hg l r =>
    cases l with
    | leaf => simpa [rightRotate] using hm
    | node ll lh lm lb lhg lt lr =>
      simp only [MaxOk] at hm
      refine maxOk_rightRotate ?_ hm.2.2 (by simp)
      simp only [MaxOk]
      exact hm.2.1

theorem keyOf_node (lo hi m : Int) (bu : List IEdge) (h : Int) (l r : ITree) :
    (ITree.node lo hi m bu h l r).keyOf = (lo, hi) := rfl

theorem mem_keysOf_node {k : Int × Int} {lo hi m : Int} {bu : List IEdge}
    {hg : Int} {l r : ITree} :
    k ∈ keysOf (.node lo hi m bu hg l r) ↔
      k ∈ keysOf l ∨ k = (lo, hi) ∨ k ∈ keysOf r := by
  simp [keysOf]

theorem mem_allEdges_node {x : IEdge} {lo hi m : Int} {bu : List IEdge}
    {hg : Int} {l r : ITree} :
    x ∈ allEdges (.node lo hi m bu hg l r) ↔
      x ∈ allEdges l ∨ x ∈ bu ∨ x ∈ allEdges r := by
  simp [allEdges]

/-- Bundled invariants produced by a right rotation of a freshly rebuilt
(possibly stale-`max`) node. -/
theorem rightRot_pkg {lo hi m : Int} {bu : List IEdge} {hgt : Int}
    {l2 r : ITree} (hsn : Shape (.node lo hi m bu hgt l2 r))
    (hml : MaxOk l2) (hmr : MaxOk r) (hln : l2 ≠ .leaf)
    (hhn : HgtOk (.node lo hi m bu hgt l2 r)) :
    Shape (rightRotate (.node lo hi m bu hgt l2 r)) ∧
    MaxOk (rightRotate (.node lo hi m bu hgt l2 r)) ∧
    HgtOk (rightRotate (.node lo hi m bu hgt l2 r)) ∧
    keysOf (rightRotate (.node lo hi m bu hgt l2 r)) =
      keysOf l2 ++ (lo, hi) :: keysOf r ∧
    allEdges (rightRotate (.node lo hi m bu hgt l2 r)) =
      allEdges l2 ++ bu ++ allEdges r :=
  ⟨shape_rightRotate hsn, maxOk_rightRotate hml hmr hln,
   hgtOk_rightRotate hhn,
   by rw [keysOf_rightRotate]; rfl,
   by rw [allEdges_rightRotate]; rfl⟩

/-- Bundled invariants produced by a left rotation of a freshly rebuilt
(possibly stale-`max`) node. -/
theorem leftRot_pkg {lo hi m : Int} {bu : List IEdge} {hgt : Int}
    {l2 r : ITree} (hsn : Shape (.node lo hi m bu hgt l2 r))
    (hml : MaxOk l2) (hmr : MaxOk r) (hrn : r ≠ .leaf)
    (hhn : HgtOk (.node lo hi m bu hgt l2 r)) :
    Shape (leftRotate (.node lo hi m bu hgt l2 r)) ∧
    MaxOk (leftRotate (.node lo hi m bu hgt l2 r)) ∧
    HgtOk (leftRotate (.node lo hi m bu hgt l2 r)) ∧
    keysOf (leftRotate (.node lo hi m bu hgt l2 r)) =
      keysOf l2 ++ (lo, hi) :: keysOf r ∧
    allEdges (leftRotate (.node lo hi m bu hgt l2 r)) =
      allEdges l2 ++ bu ++ allEdges r :=
  ⟨shape_leftRotate hsn, maxOk_leftRotate hml hmr hrn,
   hgtOk_leftRotate hhn,
   by rw [keysOf_leftRotate]; rfl,
   by rw [allEdges_leftRotate]; rfl⟩

/-- Bundled invariants for the non-rotating `updateMax(root)` exit. -/
theorem updMax_pkg {lo hi m : Int} {bu : List IEdge} {hgt : Int}
    {l2 r : ITree} (hsn : Shape (.node lo hi m bu hgt l2 r))
    (hml : MaxOk l2) (hmr : MaxOk r)
    (hhn : HgtOk (.node lo hi m bu hgt l2 r)) :
    Shape (updateMax (.node lo hi m bu hgt l2 r)) ∧
    MaxOk (updateMax (.node lo hi m bu hgt l2 r)) ∧
    HgtOk (updateMax (.node lo hi m bu hgt l2 r)) ∧
    keysOf (updateMax (.node lo hi m bu hgt l2 r)) =
      keysOf l2 ++ (lo, hi) :: keysOf r ∧
    allEdges (updateMax (.node lo hi m bu hgt l2 r)) =
      allEdges l2 ++ bu ++ allEdges r :=
  ⟨shape_updateMax hsn, maxOk_updateMax hml hmr, hgtOk_updateMax hhn,
   by rw [keysOf_updateMax]; rfl,
   by rw [allEdges_updateMax]; rfl⟩

set_option maxHeartbeats 2000000 in
/-- `IntervalTree.insert` of a fresh node preserves all tree invariants
and adds exactly the new key and its edge. -/
theorem insertT_pkg (klo khi : Int) (e0 : IEdge) (helow : e0.low = klo)
    (hehigh : e0.high = khi) (hval : klo < khi) :
    ∀ (t : ITree), Shape t → MaxOk t → HgtOk t → (klo, khi) ∉ keysOf t →
      Shape (insertT t (.node klo khi khi [e0] 0 .leaf .leaf)) ∧
      MaxOk (insertT t (.node klo khi khi [e0] 0 .leaf .leaf)) ∧
      HgtOk (insertT t (.node klo khi khi [e0] 0 .leaf .leaf)) ∧
      (∀ k, k ∈ keysOf (insertT t (.node klo khi khi [e0] 0 .leaf .leaf)) ↔
        k ∈ keysOf t ∨ k = (klo, khi)) ∧
      (∀ x, x ∈ allEdges (insertT t (.node klo khi khi [e0] 0 .leaf .leaf)) ↔
        x ∈ allEdges t ∨ x = e0) := by
  intro t
  induction t with
  | leaf =>
    intro _ _ _ _
    refine ⟨?_, ?_, ?_, ?_, ?_⟩
    · simp [insertT, Shape, keysOf, helow, hehigh, hval]
    · simp [insertT, MaxOk, localMax]
    · simp [insertT, HgtOk]
    · intro k; simp [insertT, keysOf]
    · intro x; simp [insertT, allEdges]
  | node lo hi m bu hg l r ihl ihr =>
    intro hs hm hh hfresh
    have hsn := hs
    have hmn := hm
    have hhn := hh
    simp only [Shape] at hsn
    obtain ⟨hbl, hbr, hbu, hv, hsl, hsr⟩ := hsn
    simp only [MaxOk] at hmn
    obtain ⟨hmeq, hml, hmr⟩ := hmn
    simp only [HgtOk] at hhn
    obtain ⟨hhg, hhl, hhr⟩ := hhn
    have hfl : (klo, khi) ∉ keysOf l := by
      intro hc; exact hfresh (by simp [keysOf, hc])
    have hfr : (klo, khi) ∉ keysOf r := by
      intro hc; exact hfresh (by simp [keysOf, hc])
    have hne : (klo, khi) ≠ (lo, hi) := by
      intro hc; exact hfresh (by simp [keysOf, hc])
    by_cases hgo : lexLt (klo, khi) (lo, hi)
    · -- insertion goes left
      obtain ⟨hs', hm', hh', hkeys', hedges'⟩ := ihl hsl hml hhl hfl
      simp only [insertT, keyOf_node, if_pos hgo]
      have hnn1 : (0 : Int) ≤ (insertT l (.node klo khi khi [e0] 0 .leaf .leaf)).getHeight :=
        getHeight_nonneg hh'
      have hnn2 : (0 : Int) ≤ r.getHeight := getHeight_nonneg hhr
      have hboundL : ∀ k ∈ keysOf (insertT l (.node klo khi khi [e0] 0 .leaf .leaf)),
          lexLt k (lo, hi) := by
        intro k hk
        rcases (hkeys' k).mp hk with h1 | h1
        · exact hbl k h1
        · subst h1; exact hgo
      have hkeysEq : ∀ k,
          (k ∈ keysOf (insertT l (.node klo khi khi [e0] 0 .leaf .leaf)) ∨
            k = (lo, hi) ∨ k ∈ keysOf r) ↔
          (k ∈ keysOf (.node lo hi m bu hg l r) ∨ k = (klo, khi)) := by
        intro k
        have h1 := hkeys' k
        have h2 : k ∈ keysOf (.node lo hi m bu hg l r) ↔
            k ∈ keysOf l ∨ k = (lo, hi) ∨ k ∈ keysOf r := mem_keysOf_node
        tauto
      have hedgesEq : ∀ x,
          (x ∈ allEdges (insertT l (.node klo khi khi [e0] 0 .leaf .leaf)) ∨
            x ∈ bu ∨ x ∈ allEdges r) ↔
          (x ∈ allEdges (.node lo hi m bu hg l r) ∨ x = e0) := by
        intro x
        have h1 := hedges' x
        have h2 : x ∈ allEdges (.node lo hi m bu hg l r) ↔
            x ∈ allEdges l ∨ x ∈ bu ∨ x ∈ allEdges r := mem_allEdges_node
        tauto
      split
      · -- balance > 1: right rotation (after a possible left rotation
        -- of the updated left child, chosen by the identity test)
        rename_i hbal
        have hlne : insertT l (.node klo khi khi [e0] 0 .leaf .leaf) ≠ .leaf := by
          apply ne_leaf_of_height_pos
          omega
        split
        · -- double-rotation branch
          rename_i hid
          have hs2 := shape_leftRotate hs'
          have hm2 := maxOk_leftRotate_full hm'
          have hh2 := hgtOk_leftRotate hh'
          have hne2 := leftRotate_ne_leaf hlne
          have hK := keysOf_leftRotate (insertT l (.node klo khi khi [e0] 0 .leaf .leaf))
          have hE := allEdges_leftRotate (insertT l (.node klo khi khi [e0] 0 .leaf .leaf))
          have hsn2 : Shape (.node lo hi m bu
              (1 + max (insertT l (.node klo khi khi [e0] 0 .leaf .leaf)).getHeight r.getHeight)
              (leftRotate (insertT l (.node klo khi khi [e0] 0 .leaf .leaf))) r) := by
            simp only [Shape, hK]
            exact ⟨hboundL, hbr, hbu, hv, hs2, hsr⟩
          have hhn2 : HgtOk (.node lo hi m bu
              (1 + max (insertT l (.node klo khi khi [e0] 0 .leaf .leaf)).getHeight r.getHeight)
              (leftRotate (insertT l (.node klo khi khi [e0] 0 .leaf .leaf))) r) := by
            simp only [HgtOk]
            exact ⟨by omega, hh2, hhr⟩
          obtain ⟨p1, p2, p3, p4, p5⟩ := rightRot_pkg hsn2 hm2 hmr hne2 hhn2
          refine ⟨p1, p2, p3, ?_, ?_⟩
          · intro k
            rw [p4]
            rw [← hkeysEq k]
            simp [List.mem_append, hK]
          · intro x
            rw [p5]
            rw [← hedgesEq x]
            simp [List.mem_append, hE]
        · -- single-rotation branch
          have hsn2 : Shape (.node lo hi m bu
              (1 + max (insertT l (.node klo khi khi [e0] 0 .leaf .leaf)).getHeight r.getHeight)
              (insertT l (.node klo khi khi [e0] 0 .leaf .leaf)) r) := by
            simp only [Shape]
            exact ⟨hboundL, hbr, hbu, hv, hs', hsr⟩
          have hhn2 : HgtOk (.node lo hi m bu
              (1 + max (insertT l (.node klo khi khi [e0] 0 .leaf .leaf)).getHeight r.getHeight)
              (insertT l (.node klo khi khi [e0] 0 .leaf .leaf)) r) := by
            simp only [HgtOk]
            exact ⟨by omega, hh', hhr⟩
          obtain ⟨p1, p2, p3, p4, p5⟩ := rightRot_pkg hsn2 hm' hmr hlne hhn2
          refine ⟨p1, p2, p3, ?_, ?_⟩
          · intro k
            rw [p4, ← hkeysEq k]
            simp [List.mem_append]
          · intro x
            rw [p5, ← hedgesEq x]
            simp [List.mem_append]
      · split
        · -- balance < -1 after inserting left (needs no reachability:
          -- invariants are preserved regardless)
          rename_i hbal1 hbal2
          have hrne : r ≠ .leaf := by
            apply ne_leaf_of_height_pos
            omega
          split
          · rename_i hid
            have hs2 := shape_rightRotate hsr
            have hm2 := maxOk_rightRotate_full hmr
            have hh2 := hgtOk_rightRotate hhr
            have hne2 := rightRotate_ne_leaf hrne
            have hK := keysOf_rightRotate r
            have hE := allEdges_rightRotate r
            have hsn2 : Shape (.node lo hi m bu
                (1 + max (insertT l (.node klo khi khi [e0] 0 .leaf .leaf)).getHeight r.getHeight)
                (insertT l (.node klo khi khi [e0] 0 .leaf .leaf)) (rightRotate r)) := by
              simp only [Shape, hK]
              exact ⟨hboundL, hbr, hbu, hv, hs', hs2⟩
            have hhn2 : HgtOk (.node lo hi m bu
                (1 + max (insertT l (.node klo khi khi [e0] 0 .leaf .leaf)).getHeight r.getHeight)
                (insertT l (.node klo khi khi [e0] 0 .leaf .leaf)) (rightRotate r)) := by
              simp only [HgtOk]
              exact ⟨by omega, hh', hh2⟩
            obtain ⟨p1, p2, p3, p4, p5⟩ := leftRot_pkg hsn2 hm' hm2 hne2 hhn2
            refine ⟨p1, p2, p3, ?_, ?_⟩
            · intro k
              rw [p4, ← hkeysEq k]
              simp [List.mem_append, hK]
            · intro x
              rw [p5, ← hedgesEq x]
              simp [List.mem_append, hE]
          · have hsn2 : Shape (.node lo hi m bu
                (1 + max (insertT l (.node klo khi khi [e0] 0 .leaf .leaf)).getHeight r.getHeight)
                (insertT l (.node klo khi khi [e0] 0 .leaf .leaf)) r) := by
              simp only [Shape]
              exact ⟨hboundL, hbr, hbu, hv, hs', hsr⟩
            have hhn2 : HgtOk (.node lo hi m bu
                (1 + max (insertT l (.node klo khi khi [e0] 0 .leaf .leaf)).getHeight r.getHeight)
                (insertT l (.node klo khi khi [e0] 0 .leaf .leaf)) r) := by
              simp only [HgtOk]
              exact ⟨by omega, hh', hhr⟩
            obtain ⟨p1, p2, p3, p4, p5⟩ := leftRot_pkg hsn2 hm' hmr hrne hhn2
            refine ⟨p1, p2, p3, ?_, ?_⟩
            · intro k
              rw [p4, ← hkeysEq k]
              simp [List.mem_append]
            · intro x
              rw [p5, ← hedgesEq x]
              simp [List.mem_append]
        · -- no rotation
          have hsn2 : Shape (.node lo hi m bu
              (1 + max (insertT l (.node klo khi khi [e0] 0 .leaf .leaf)).getHeight r.getHeight)
              (insertT l (.node klo khi khi [e0] 0 .leaf .leaf)) r) := by
            simp only [Shape]
            exact ⟨hboundL, hbr, hbu, hv, hs', hsr⟩
          have hhn2 : HgtOk (.node lo hi m bu
              (1 + max (insertT l (.node klo khi khi [e0] 0 .leaf .leaf)).getHeight r.getHeight)
              (insertT l (.node klo khi khi [e0] 0 .leaf .leaf)) r) := by
            simp only [HgtOk]
            exact ⟨by omega, hh', hhr⟩
          obtain ⟨p1, p2, p3, p4, p5⟩ := updMax_pkg hsn2 hm' hmr hhn2
          refine ⟨p1, p2, p3, ?_, ?_⟩
          · intro k
            rw [p4, ← hkeysEq k]
            simp [List.mem_append]
          · intro x
            rw [p5, ← hedgesEq x]
            simp [List.mem_append]
    · -- insertion goes right
      have hgo' : lexLt (lo, hi) (klo, khi) := lexLt_of_not_of_ne hgo hne
      obtain ⟨hs', hm', hh', hkeys', hedges'⟩ := ihr hsr hmr hhr hfr
      simp only [insertT, keyOf_node, if_neg hgo]
      have hnn1 : (0 : Int) ≤ (insertT r (.node klo khi khi [e0] 0 .leaf .leaf)).getHeight :=
        getHeight_nonneg hh'
      have hnn2 : (0 : Int) ≤ l.getHeight := getHeight_nonneg hhl
      have hboundR : ∀ k ∈ keysOf (insertT r (.node klo khi khi [e0] 0 .leaf .leaf)),
          lexLt (lo, hi) k := by
        intro k hk
        rcases (hkeys' k).mp hk with h1 | h1
        · exact hbr k h1
        · subst h1; exact hgo'
      have hkeysEq : ∀ k,
          (k ∈ keysOf l ∨ k = (lo, hi) ∨
            k ∈ keysOf (insertT r (.node klo khi khi [e0] 0 .leaf .leaf))) ↔
          (k ∈ keysOf (.node lo hi m bu hg l r) ∨ k = (klo, khi)) := by
        intro k
        have h1 := hkeys' k
        have h2 : k ∈ keysOf (.node lo hi m bu hg l r) ↔
            k ∈ keysOf l ∨ k = (lo, hi) ∨ k ∈ keysOf r := mem_keysOf_node
        tauto
      have hedgesEq : ∀ x,
          (x ∈ allEdges l ∨ x ∈ bu ∨
            x ∈ allEdges (insertT r (.node klo khi khi [e0] 0 .leaf .leaf))) ↔
          (x ∈ allEdges (.node lo hi m bu hg l r) ∨ x = e0) := by
        intro x
        have h1 := hedges' x
        have h2 : x ∈ allEdges (.node lo hi m bu hg l r) ↔
            x ∈ allEdges l ∨ x ∈ bu ∨ x ∈ allEdges r := mem_allEdges_node
        tauto
      split
      · -- balance > 1 after inserting right (unreachable in practice)
        rename_i hbal
        have hlne : l ≠ .leaf := by
          apply ne_leaf_of_height_pos
          omega
        split
        · rename_i hid
          have hs2 := shape_leftRotate hsl
          have hm2 := maxOk_leftRotate_full hml
          have hh2 := hgtOk_leftRotate hhl
          have hne2 := leftRotate_ne_leaf hlne
          have hK := keysOf_leftRotate l
          have hE := allEdges_leftRotate l
          have hsn2 : Shape (.node lo hi m bu
              (1 + max l.getHeight (insertT r (.node klo khi khi [e0] 0 .leaf .leaf)).getHeight)
              (leftRotate l) (insertT r (.node klo khi khi [e0] 0 .leaf .leaf))) := by
            simp only [Shape, hK]
            exact ⟨hbl, hboundR, hbu, hv, hs2, hs'⟩
          have hhn2 : HgtOk (.node lo hi m bu
              (1 + max l.getHeight (insertT r (.node klo khi khi [e0] 0 .leaf .leaf)).getHeight)
              (leftRotate l) (insertT r (.node klo khi khi [e0] 0 .leaf .leaf))) := by
            simp only [HgtOk]
            exact ⟨by omega, hh2, hh'⟩
          obtain ⟨p1, p2, p3, p4, p5⟩ := rightRot_pkg hsn2 hm2 hm' hne2 hhn2
          refine ⟨p1, p2, p3, ?_, ?_⟩
          · intro k
            rw [p4, ← hkeysEq k]
            simp [List.mem_append, hK]
          · intro x
            rw [p5, ← hedgesEq x]
            simp [List.mem_append, hE]
        · have hsn2 : Shape (.node lo hi m bu
              (1 + max l.getHeight (insertT r (.node klo khi khi [e0] 0 .leaf .leaf)).getHeight)
              l (insertT r (.node klo khi khi [e0] 0 .leaf .leaf))) := by
            simp only [Shape]
            exact ⟨hbl, hboundR, hbu, hv, hsl, hs'⟩
          have hhn2 : HgtOk (.node lo hi m bu
              (1 + max l.getHeight (insertT r (.node klo khi khi [e0] 0 .leaf .leaf)).getHeight)
              l (insertT r (.node klo khi khi [e0] 0 .leaf .leaf))) := by
            simp only [HgtOk]
            exact ⟨by omega, hhl, hh'⟩
          obtain ⟨p1, p2, p3, p4, p5⟩ := rightRot_pkg hsn2 hml hm' hlne hhn2
          refine ⟨p1, p2, p3, ?_, ?_⟩
          · intro k
            rw [p4, ← hkeysEq k]
            simp [List.mem_append]
          · intro x
            rw [p5, ← hedgesEq x]
            simp [List.mem_append]
      · split
        · -- balance < -1: left rotation
          rename_i hbal1 hbal2
          have hrne : insertT r (.node klo khi khi [e0] 0 .leaf .leaf) ≠ .leaf := by
            apply ne_leaf_of_height_pos
            omega
          split
          · rename_i hid
            have hs2 := shape_rightRotate hs'
            have hm2 := maxOk_rightRotate_full hm'
            have hh2 := hgtOk_rightRotate hh'
            have hne2 := rightRotate_ne_leaf hrne
            have hK := keysOf_rightRotate (insertT r (.node klo khi khi [e0] 0 .leaf .leaf))
            have hE := allEdges_rightRotate (insertT r (.node klo khi khi [e0] 0 .leaf .leaf))
            have hsn2 : Shape (.node lo hi m bu
                (1 + max l.getHeight (insertT r (.node klo khi khi [e0] 0 .leaf .leaf)).getHeight)
                l (rightRotate (insertT r (.node klo khi khi [e0] 0 .leaf .leaf)))) := by
              simp only [Shape, hK]
              exact ⟨hbl, hboundR, hbu, hv, hsl, hs2⟩
            have hhn2 : HgtOk (.node lo hi m bu
                (1 + max l.getHeight (insertT r (.node klo khi khi [e0] 0 .leaf .leaf)).getHeight)
                l (rightRotate (insertT r (.node klo khi khi [e0] 0 .leaf .leaf)))) := by
              simp only [HgtOk]
              exact ⟨by omega, hhl, hh2⟩
            obtain ⟨p1, p2, p3, p4, p5⟩ := leftRot_pkg hsn2 hml hm2 hne2 hhn2
            refine ⟨p1, p2, p3, ?_, ?_⟩
            · intro k
              rw [p4, ← hkeysEq k]
              simp [List.mem_append, hK]
            · intro x
              rw [p5, ← hedgesEq x]
              simp [List.mem_append, hE]
          · have hsn2 : Shape (.node lo hi m bu
                (1 + max l.getHeight (insertT r (.node klo khi khi [e0] 0 .leaf .leaf)).getHeight)
                l (insertT r (.node klo khi khi [e0] 0 .leaf .leaf))) := by
              simp only [Shape]
              exact ⟨hbl, hboundR, hbu, hv, hsl, hs'⟩
            have hhn2 : HgtOk (.node lo hi m bu
                (1 + max l.getHeight (insertT r (.node klo khi khi [e0] 0 .leaf .leaf)).getHeight)
                l (insertT r (.node klo khi khi [e0] 0 .leaf .leaf))) := by
              simp only [HgtOk]
              exact ⟨by omega, hhl, hh'⟩
            obtain ⟨p1, p2, p3, p4, p5⟩ := leftRot_pkg hsn2 hml hm' hrne hhn2
            refine ⟨p1, p2, p3, ?_, ?_⟩
            · intro k
              rw [p4, ← hkeysEq k]
              simp [List.mem_append]
            · intro x
              rw [p5, ← hedgesEq x]
              simp [List.mem_append]
        · -- no rotation
          have hsn2 : Shape (.node lo hi m bu
              (1 + max l.getHeight (insertT r (.node klo khi khi [e0] 0 .leaf .leaf)).getHeight)
              l (insertT r (.node klo khi khi [e0] 0 .leaf .leaf))) := by
            simp only [Shape]
            exact ⟨hbl, hboundR, hbu, hv, hsl, hs'⟩
          have hhn2 : HgtOk (.node lo hi m bu
              (1 + max l.getHeight (insertT r (.node klo khi khi [e0] 0 .leaf .leaf)).getHeight)
              l (insertT r (.node klo khi khi [e0] 0 .leaf .leaf))) := by
            simp only [HgtOk]
            exact ⟨by omega, hhl, hh'⟩
          obtain ⟨p1, p2, p3, p4, p5⟩ := updMax_pkg hsn2 hml hm' hhn2
          refine ⟨p1, p2, p3, ?_, ?_⟩
          · intro k
            rw [p4, ← hkeysEq k]
            simp [List.mem_append]
          · intro x
            rw [p5, ← hedgesEq x]
            simp [List.mem_append]

theorem keysOf_appendBucket (t : ITree) (k : Int × Int) (e : IEdge) :
    keysOf (appendBucket t k e) = keysOf t := by
  induction t with
  | leaf => rfl
  | node lo hi m bu hg l r ihl ihr =>
    simp only [appendBucket]
    split <;> simp [keysOf, ihl, ihr]

theorem maxvOf_appendBucket (t : ITree) (k : Int × Int) (e : IEdge) :
    (appendBucket t k e).maxvOf = t.maxvOf := by
  cases t with
  | leaf => rfl
  | node lo hi m bu hg l r =>
    simp only [appendBucket]
    split <;> rfl

theorem appendBucket_eq_leaf_iff (t : ITree) (k : Int × Int) (e : IEdge) :
    appendBucket t k e = .leaf ↔ t = .leaf := by
  cases t with
  | leaf => simp [appendBucket]
  | node lo hi m bu hg l r =>
    simp only [appendBucket]
    split <;> simp

theorem localMax_congr {hi : Int} {l l' r r' : ITree}
    (h1 : l = ITree.leaf ↔ l' = ITree.leaf) (h2 : l.maxvOf = l'.maxvOf)
    (h3 : r = ITree.leaf ↔ r' = ITree.leaf) (h4 : r.maxvOf = r'.maxvOf) :
    localMax hi l r = localMax hi l' r' := by
  cases l <;> cases l' <;> cases r <;> cases r' <;>
    simp_all [localMax, ITree.maxvOf]

theorem shape_appendBucket {t : ITree} {k : Int × Int} {e : IEdge}
    (hs : Shape t) (he1 : e.low = k.1) (he2 : e.high = k.2) :
    Shape (appendBucket t k e) := by
  induction t with
  | leaf => exact hs
  | node lo hi m bu hg l r ihl ihr =>
    simp only [Shape] at hs
    obtain ⟨hbl, hbr, hbu, hv, hsl, hsr⟩ := hs
    simp only [appendBucket]
    split
    · rename_i hkey
      simp only [Shape]
      refine ⟨hbl, hbr, ?_, hv, hsl, hsr⟩
      intro x hx
      simp only [List.mem_append, List.mem_singleton] at hx
      rcases hx with hx | hx
      · exact hbu x hx
      · subst hx
        have : (lo, hi) = k := hkey
        constructor
        · rw [he1, ← this]
        · rw [he2, ← this]
    · simp only [Shape, keysOf_appendBucket]
      exact ⟨hbl, hbr, hbu, hv, ihl hsl, ihr hsr⟩

theorem maxOk_appendBucket {t : ITree} (k : Int × Int) (e : IEdge)
    (hm : MaxOk t) : MaxOk (appendBucket t k e) := by
  induction t with
  | leaf => exact hm
  | node lo hi m bu hg l r ihl ihr =>
    simp only [MaxOk] at hm
    obtain ⟨hmeq, hml, hmr⟩ := hm
    simp only [appendBucket]
    split
    · simp only [MaxOk]
      exact ⟨hmeq, hml, hmr⟩
    · simp only [MaxOk]
      refine ⟨?_, ihl hml, ihr hmr⟩
      rw [hmeq]
      exact localMax_congr ((appendBucket_eq_leaf_iff l k e).symm)
        (maxvOf_appendBucket l k e).symm ((appendBucket_eq_leaf_iff r k e).symm)
        (maxvOf_appendBucket r k e).symm

theorem hgtOk_appendBucket {t : ITree} (k : Int × Int) (e : IEdge)
    (hh : HgtOk t) : HgtOk (appendBucket t k e) := by
  induction t with
  | leaf => exact hh
  | node lo hi m bu hg l r ihl ihr =>
    simp only [HgtOk] at hh
    obtain ⟨h1, h2, h3⟩ := hh
    simp only [appendBucket]
    split
    · simp only [HgtOk]; exact ⟨h1, h2, h3⟩
    · simp only [HgtOk]; exact ⟨h1, ihl h2, ihr h3⟩

set_option maxHeartbeats 1000000 in
theorem mem_allEdges_appendBucket {t : ITree} {k : Int × Int} {e x : IEdge} :
    x ∈ allEdges (appendBucket t k e) ↔
      x ∈ allEdges t ∨ (x = e ∧ k ∈ keysOf t) := by
  induction t with
  | leaf => simp [appendBucket, allEdges, keysOf]
  | node lo hi m bu hg l r ihl ihr =>
    simp only [appendBucket]
    split
    · rename_i hkey
      have hk : k ∈ keysOf (ITree.node lo hi m bu hg l r) := by
        simp [keysOf, ← hkey]
      simp only [keysOf, List.mem_append, List.mem_cons] at hk
      simp only [allEdges, keysOf, List.mem_append, List.mem_cons,
        List.mem_singleton]
      tauto
    · rename_i hkey
      have hkey' : ¬ k = (lo, hi) := fun hc => hkey (by simp [hc])
      simp only [allEdges, keysOf, List.mem_append, List.mem_cons, ihl, ihr]
      tauto

theorem ne_leaf_of_mem_nodesOf {t : ITree} {n : Int × Int × List IEdge}
    (h : n ∈ nodesOf t) : t ≠ .leaf := by
  intro hc; subst hc; simp [nodesOf] at h

/-- Correctness of the pruned `IntervalTree.query`: on a tree satisfying
the search and `max` invariants, and for a window with `b ≤ e`, exactly
the nodes satisfying `Node.inInterval` are produced. -/
theorem queryT_mem (b e : Int) (hbe : b ≤ e) :
    ∀ (t : ITree), Shape t → MaxOk t →
      ∀ n, n ∈ queryT t b e ↔
        n ∈ nodesOf t ∧ nodeInInterval n.1 n.2.1 b e := by
  intro t
  induction t with
  | leaf => intro _ _ n; simp [queryT, nodesOf]
  | node lo hi m bu hg l r ihl ihr =>
    intro hs hm n
    have hsn := hs
    simp only [Shape] at hsn
    obtain ⟨hbl, hbr, hbu, hv, hsl, hsr⟩ := hsn
    have hmn := hm
    simp only [MaxOk] at hmn
    obtain ⟨hmeq, hml, hmr⟩ := hmn
    constructor
    · intro hn
      simp only [queryT, List.mem_append] at hn
      rcases hn with (hn | hn) | hn
      · split at hn
        · obtain ⟨h1, h2⟩ := (ihl hsl hml n).mp hn
          exact ⟨by simp [nodesOf, List.mem_append, h1], h2⟩
        · simp at hn
      · split at hn
        · rename_i hpred
          simp only [List.mem_singleton] at hn
          subst hn
          exact ⟨by simp [nodesOf], hpred⟩
        · simp at hn
      · split at hn
        · obtain ⟨h1, h2⟩ := (ihr hsr hmr n).mp hn
          exact ⟨by simp [nodesOf, List.mem_append, h1], h2⟩
        · simp at hn
    · rintro ⟨hmem, hpred⟩
      simp only [nodesOf, List.mem_append, List.mem_cons] at hmem
      simp only [queryT, List.mem_append]
      rcases hmem with hmem | hmem | hmem
      · -- the node sits in the left subtree; the pruning guard holds
        have hkmem := keysOf_of_nodesOf hmem
        have hvk := keys_valid hsl _ hkmem
        have hmb := maxv_bound hml _ hkmem
        have hguard : l.isNode ∧ l.maxvOf ≥ b := by
          refine ⟨ne_leaf_of_mem_nodesOf hmem, ?_⟩
          simp only [nodeInInterval] at hpred
          simp only at hvk hmb
          omega
        left; left
        rw [if_pos hguard]
        exact (ihl hsl hml n).mpr ⟨hmem, hpred⟩
      · -- the node is the root
        left; right
        rw [if_pos (by subst hmem; exact hpred)]
        simp [hmem]
      · -- the node sits in the right subtree
        have hkmem := keysOf_of_nodesOf hmem
        have hvk := keys_valid hsr _ hkmem
        have hmb := maxv_bound hmr _ hkmem
        have hlex := hbr _ hkmem
        have hguard : r.isNode ∧ lo ≤ e ∧ r.maxvOf ≥ b := by
          refine ⟨ne_leaf_of_mem_nodesOf hmem, ?_, ?_⟩
          · simp only [nodeInInterval] at hpred
            simp only [lexLt] at hlex
            omega
          · simp only [nodeInInterval] at hpred
            simp only at hvk hmb
            omega
        right
        rw [if_pos hguard]
        exact (ihr hsr hmr n).mpr ⟨hmem, hpred⟩

theorem falsyI_some (x : Int) : falsyI (some x) ↔ x = 0 := Iff.rfl

/-- Invariant package of an `IntervalTree` built by `add` calls: tree
invariants, `nodes`-dict/tree coherence, and the stored multiset of
edges. -/
def TreePkg (st : ITreeSt) (es : List IEdge) : Prop :=
  Shape st.root ∧ MaxOk st.root ∧ HgtOk st.root ∧
  (∀ k, k ∈ st.nodesKeys ↔ k ∈ keysOf st.root) ∧
  (∀ x, x ∈ allEdges st.root ↔ x ∈ es)

theorem treePkg_empty : TreePkg itEmpty [] := by
  refine ⟨trivial, trivial, trivial, ?_, ?_⟩ <;>
    simp [itEmpty, keysOf, allEdges]

theorem itAdd_pkg {st : ITreeSt} {es : List IEdge} (e : IEdge)
    (hpkg : TreePkg st es) (hval : e.low < e.high) :
    TreePkg (itAdd st e) (es ++ [e]) := by
  obtain ⟨hs, hm, hh, hkeys, hedges⟩ := hpkg
  by_cases hmem : (e.low, e.high) ∈ st.nodesKeys
  · have hkmem : (e.low, e.high) ∈ keysOf st.root := (hkeys _).mp hmem
    simp only [itAdd, if_pos hmem]
    refine ⟨shape_appendBucket hs rfl rfl, maxOk_appendBucket _ _ hm,
      hgtOk_appendBucket _ _ hh, ?_, ?_⟩
    · intro k
      simp only [keysOf_appendBucket]
      exact hkeys k
    · intro x
      rw [mem_allEdges_appendBucket]
      simp only [List.mem_append, List.mem_singleton, hedges]
      constructor
      · rintro (h | ⟨h, _⟩)
        · exact Or.inl h
        · exact Or.inr h
      · rintro (h | h)
        · exact Or.inl h
        · exact Or.inr ⟨h, hkmem⟩
  · have hfresh : (e.low, e.high) ∉ keysOf st.root :=
      fun hc => hmem ((hkeys _).mpr hc)
    obtain ⟨p1, p2, p3, p4, p5⟩ :=
      insertT_pkg e.low e.high e rfl rfl hval st.root hs hm hh hfresh
    simp only [itAdd, if_neg hmem]
    refine ⟨p1, p2, p3, ?_, ?_⟩
    · intro k
      simp only [List.mem_append, List.mem_singleton, p4 k, hkeys k]
    · intro x
      simp only [List.mem_append, List.mem_singleton, p5 x, hedges x]

theorem itAddFrom_pkg : ∀ (es : List IEdge) (st : ITreeSt) (es0 : List IEdge),
    TreePkg st es0 → (∀ x ∈ es, x.low < x.high) →
    TreePkg (itAddFrom st es) (es0 ++ es) := by
  intro es
  induction es with
  | nil => intro st es0 h _; simpa [itAddFrom] using h
  | cons e rest ih =>
    intro st es0 hpkg hval
    have h1 := itAdd_pkg e hpkg (hval e (by simp))
    have h2 := ih (itAdd st e) (es0 ++ [e]) h1 (fun x hx => hval x (by simp [hx]))
    simpa [itAddFrom, List.append_assoc] using h2

theorem itBuild_pkg (es : List IEdge) (hval : ∀ x ∈ es, x.low < x.high) :
    TreePkg (itAddFrom itEmpty es) es := by
  simpa using itAddFrom_pkg es itEmpty [] treePkg_empty hval

/-- `IntervalTree.slice` on an `add`-built tree with truthy (non-zero)
bounds returns exactly the stored edges satisfying the overlap-or-equal
predicate of `Node.inInterval`. -/
theorem itSlice_mem {st : ITreeSt} {es : List IEdge} (hpkg : TreePkg st es)
    (b e : Int) (hb : b ≠ 0) (he : e ≠ 0) (hbe : b ≤ e) (x : IEdge) :
    x ∈ itSlice st (some b) (some e) ↔
      x ∈ es ∧ ((x.low < e ∧ x.high > b) ∨ x.low = b) := by
  obtain ⟨hs, hm, hh, hkeys, hedges⟩ := hpkg
  cases hroot : st.root with
  | leaf =>
    have hno := hedges x
    rw [hroot] at hno
    simp only [allEdges, List.not_mem_nil, false_iff] at hno
    simp only [itSlice, hroot]
    constructor
    · intro hx; simp at hx
    · rintro ⟨hx, _⟩; exact absurd hx hno
  | node lo hi m bu hg l r =>
    rw [hroot] at hs hm
    have hedges' : ∀ y, y ∈ allEdges (.node lo hi m bu hg l r) ↔ y ∈ es := by
      intro y; rw [← hroot]; exact hedges y
    simp only [itSlice, hroot]
    rw [if_neg (by simp [falsyI_some, hb]), if_neg (by simp [falsyI_some, he])]
    simp only [Option.getD_some]
    rw [List.mem_flatMap]
    constructor
    · rintro ⟨n, hn, hx⟩
      obtain ⟨hmemn, hpredn⟩ :=
        (queryT_mem b e hbe _ hs hm n).mp hn
      obtain ⟨hl, hh2⟩ := bucket_coherent hs n hmemn x hx
      refine ⟨(hedges' x).mp (allEdges_iff_nodesOf.mpr ⟨n, hmemn, hx⟩), ?_⟩
      simpa only [nodeInInterval, hl, hh2] using hpredn
    · rintro ⟨hx, hpred⟩
      obtain ⟨n, hmemn, hxn⟩ := allEdges_iff_nodesOf.mp ((hedges' x).mpr hx)
      obtain ⟨hl, hh2⟩ := bucket_coherent hs n hmemn x hxn
      refine ⟨n, (queryT_mem b e hbe _ hs hm n).mpr ⟨hmemn, ?_⟩, hxn⟩
      simpa only [nodeInInterval, ← hl, ← hh2] using hpred

/-! ## Dictionary-update algebra (for the repeated-`add_edge` behaviour) -/

theorem alSet_alSet {α β : Type} [DecidableEq α] (m : List (α × β)) (k : α)
    (v1 v2 : β) : alSet (alSet m k v1) k v2 = alSet m k v2 := by
  induction m with
  | nil => simp [alSet]
  | cons p rest ih =>
    by_cases h : p.1 = k
    · simp [alSet, h]
    · simp [alSet, h, ih]

theorem alModify_alModify {α β : Type} [DecidableEq α] (m : List (α × β))
    (k : α) (d : β) (f g : β → β) :
    alModify (alModify m k d f) k d g = alModify m k d (fun v => g (f v)) := by
  induction m with
  | nil => simp [alModify]
  | cons p rest ih =>
    by_cases h : p.1 = k
    · simp [alModify, h]
    · simp [alModify, h, ih]

theorem sdModify_sdModify {β : Type} (m : List (Int × β)) (k : Int) (d : β)
    (f g : β → β) :
    sdModify (sdModify m k d f) k d g = sdModify m k d (fun v => g (f v)) := by
  induction m with
  | nil => simp [sdModify]
  | cons p rest ih =>
    by_cases h : k = p.1
    · simp [sdModify, h]
    · by_cases h2 : k < p.1
      · simp [sdModify, h, h2]
      · simp [sdModify, h, h2, ih]

theorem setAdd_setAdd {α : Type} [DecidableEq α] (s : List α) (x : α) :
    setAdd (setAdd s x) x = setAdd s x := by
  by_cases h : x ∈ s
  · simp [setAdd, h]
  · simp [setAdd, h]

theorem alGet_append {α β : Type} [DecidableEq α] (m1 m2 : List (α × β))
    (k : α) :
    alGet (m1 ++ m2) k =
      match alGet m1 k with
      | some v => some v
      | none => alGet m2 k := by
  induction m1 with
  | nil => simp [alGet]
  | cons p rest ih =>
    by_cases hp : p.1 = k
    · simp [alGet, hp]
    · simp [alGet, hp, ih]

theorem alGet_isSome_alSetdefault {α β : Type} [DecidableEq α]
    (m : List (α × β)) (k k' : α) (d : β) (h : (alGet m k).isSome) :
    (alGet (alSetdefault m k' d) k).isSome := by
  unfold alSetdefault
  cases hg : alGet m k' with
  | some v => exact h
  | none =>
    rw [alGet_append]
    cases hk : alGet m k with
    | some v => simp
    | none => rw [hk] at h; simp at h

theorem alGet_alSetdefault_self {α β : Type} [DecidableEq α]
    (m : List (α × β)) (k : α) (d : β) :
    (alGet (alSetdefault m k d) k).isSome := by
  unfold alSetdefault
  cases hg : alGet m k with
  | some v => simp [hg]
  | none =>
    rw [alGet_append, hg]
    simp [alGet]

theorem alSetdefault_of_isSome {α β : Type} [DecidableEq α]
    (m : List (α × β)) (k : α) (d : β) (h : (alGet m k).isSome) :
    alSetdefault m k d = m := by
  unfold alSetdefault
  cases hg : alGet m k with
  | some v => rfl
  | none => rw [hg] at h; simp at h

instance {e a : Type} [DecidableEq e] [DecidableEq a] :
    DecidableEq (Except e a) := fun x y =>
  match x, y with
  | .error e1, .error e2 =>
    if h : e1 = e2 then isTrue (by rw [h])
    else isFalse (fun hc => by cases hc; exact h rfl)
  | .error _, .ok _ => isFalse (fun hc => by cases hc)
  | .ok _, .error _ => isFalse (fun hc => by cases hc)
  | .ok a1, .ok a2 =>
    if h : a1 = a2 then isTrue (by rw [h])
    else isFalse (fun hc => by cases hc; exact h rfl)

/-! ## Claim theorems -/

/-- A one-edge interval graph built through `add_edge` (shared concrete
fixture). -/
def igOneEdge : IntervalGraph :=
  match igAddEdge igEmpty 1 2 3 10 [] with
  | .ok g => g
  | .error _ => igEmpty

/-- The C1 counterexample graph: one stored edge `(1, 2, -2, -1)`. -/
def c1cexg : IntervalGraph :=
  { tree := itAddFrom itEmpty [⟨1, 2, -2, -1⟩], nodesAttr := [], adj := [] }

/-- The C1 witness graph: one stored edge `(1, 2, 3, 10)`. -/
def c1wg : IntervalGraph :=
  { tree := itAddFrom itEmpty [⟨1, 2, 3, 10⟩], nodesAttr := [], adj := [] }

/-- C1 (counterexample): with the stored edge `(1, 2, -2, -1)`, the query
`edges(begin=0, end=5)` RETURNS the edge although the claimed predicate
`(low < e ∧ high > b) ∨ low = b` is false for it — a `begin` of `0` is
falsy and silently replaced by the tree-wide minimum `-2`. -/
theorem c1_counterexample :
    igEdges c1cexg none none (some 0) (some 5) =
      .ok [⟨1, 2, -2, -1⟩] ∧
    ¬ ((((-2 : Int) < 5 ∧ (-1 : Int) > 0) ∨ (-2 : Int) = 0)) := by decide

/-- C1 (amended): for every `IntervalGraph` whose tree was built by
`add` from edges of strictly positive duration, and every window with
NON-ZERO `b ≤ e`, `edges(begin=b, end=e)` with no node filter returns
exactly the stored edges satisfying `(low < e ∧ high > b) ∨ low = b`
(the brute-force linear scan); windows with a zero or missing endpoint
are excluded because Python truthiness replaces them by the tree-wide
extremes. -/
theorem c1_edges_window_equals_scan (es : List IEdge) (g : IntervalGraph)
    (hg : g.tree = itAddFrom itEmpty es)
    (hval : ∀ y ∈ es, y.low < y.high)
    (b e : Int) (hb : b ≠ 0) (he : e ≠ 0) (hbe : b ≤ e) (x : IEdge) :
    ∃ l, igEdges g none none (some b) (some e) = .ok l ∧
      (x ∈ l ↔ x ∈ es ∧ ((x.low < e ∧ x.high > b) ∨ x.low = b)) := by
  refine ⟨itSlice g.tree (some b) (some e), ?_, ?_⟩
  · simp only [igEdges]
    rw [if_neg (by simp [falsyN, falsyI])]
    rw [if_neg (by simp only [falsyI_some]; omega)]
    rw [if_neg (by simp only [falsyI_some, Option.getD_some]; omega)]
  · rw [hg]
    exact itSlice_mem (itBuild_pkg es hval) b e hb he hbe x

/-- Witness for the amended C1 at a concrete instance. -/
theorem c1_edges_window_equals_scan_witness :
    (∀ y ∈ [(⟨1, 2, 3, 10⟩ : IEdge)], y.low < y.high) ∧
    (3 : Int) ≠ 0 ∧ (4 : Int) ≠ 0 ∧ (3 : Int) ≤ 4 ∧
    (∃ l, igEdges c1wg none none (some 3) (some 4) = .ok l ∧
      ((⟨1, 2, 3, 10⟩ : IEdge) ∈ l ↔
        (⟨1, 2, 3, 10⟩ : IEdge) ∈ [(⟨1, 2, 3, 10⟩ : IEdge)] ∧
          (((⟨1, 2, 3, 10⟩ : IEdge).low < 4 ∧ (⟨1, 2, 3, 10⟩ : IEdge).high > 3) ∨
            (⟨1, 2, 3, 10⟩ : IEdge).low = 3))) :=
  ⟨by decide, by decide, by decide, by decide,
   c1_edges_window_equals_scan [⟨1, 2, 3, 10⟩] c1wg rfl (by decide) 3 4
     (by decide) (by decide) (by decide) ⟨1, 2, 3, 10⟩⟩

/-- The graph produced by the C2 failing call. -/
def c2after : IntervalGraph :=
  match igAddEdge igEmpty 1 2 10 5 [] with
  | .ok g => g
  | .error _ => igEmpty

/-- C2: `add_edge(1, 2, 10, 5)` with `end < begin` on an empty
`IntervalGraph` raises nothing and mutates the graph: the zero-checked
`ValueError` handler is dead code because `IntervalTree.add` validates
nothing, so the negative-duration edge is silently stored (1 edge in the
tree, both endpoint nodes created). -/
theorem c2_invalid_interval_silently_accepted :
    igAddEdge igEmpty 1 2 10 5 [] = .ok c2after ∧
    c2after.tree.number_of_edges = 1 ∧
    (⟨1, 2, 10, 5⟩ : IEdge) ∈ allEdges c2after.tree.root ∧
    c2after.nodesAttr = [(1, []), (2, [])] := by decide

/-- The edges of the C3 failing sequence: seven one-edge intervals
with keys `(1,2) … (13,14)`. -/
def c3edges : List IEdge :=
  [⟨1, 1, 1, 2⟩, ⟨2, 2, 3, 4⟩, ⟨3, 3, 5, 6⟩, ⟨4, 4, 7, 8⟩,
   ⟨5, 5, 9, 10⟩, ⟨6, 6, 11, 12⟩, ⟨7, 7, 13, 14⟩]

/-- The tree after removing the `(3,4)`-edge from the C3 sequence. -/
def c3after : ITreeSt :=
  match itRemove (itAddFrom itEmpty c3edges) ⟨2, 2, 3, 4⟩ with
  | .ok st => st
  | .error _ => itEmpty

/-- C3: after adding seven valid edges and removing ONLY the edge with
key `(3, 4)`, the never-removed edge with key `(5, 6)` is no longer in
the tree reachable from the root (and the edge count still says 6):
`remove` drops the result of `discard`, and `discard` of a node replaces
it by its left child alone, orphaning the right child. -/
theorem c3_remove_loses_unrelated_edge :
    itRemove (itAddFrom itEmpty c3edges) ⟨2, 2, 3, 4⟩ = .ok c3after ∧
    (⟨3, 3, 5, 6⟩ : IEdge) ∈ allEdges (itAddFrom itEmpty c3edges).root ∧
    (⟨3, 3, 5, 6⟩ : IEdge) ∉ allEdges c3after.root ∧
    c3after.number_of_edges = 6 := by decide

/-- C4: re-adding the identical edge `(1, 2, 3, 10)` does not merge
attributes: `add_edge` passes the non-empty LIST returned by
`self.edges(u, v, begin, end)` as a dict key, and Python raises
`TypeError: unhashable type: 'list'`. -/
theorem c4_duplicate_add_raises_typeerror :
    igAddEdge igEmpty 1 2 3 10 [] = .ok igOneEdge ∧
    igAddEdge igOneEdge 1 2 3 10 [("weight", 1)] =
      .error "TypeError: unhashable type: list" := by decide

/-- C5: exact-interval `remove_edge(..., overlapping=False)` raises
`IndexError` instead of being a quiet no-op — both on an empty graph
(no match) and when the exact edge exists — because `__remove_iedge`
receives the whole result list and `tree.remove` indexes `edge[2]`. -/
theorem c5_exact_remove_raises_indexerror :
    igRemoveEdge igEmpty 1 2 (some 3) (some 10) false =
      .error "IndexError: list index out of range" ∧
    igRemoveEdge igOneEdge 1 2 (some 3) (some 10) false =
      .error "IndexError: list index out of range" := by decide

/-- C6 (counterexample): adding `(1, 2, 5)` twice to an `ImpulseDiGraph`
yields ONE stored edge, not two distinct instances, and `edgeid` is
still `0` (it is never assigned after `__init__`); the second call's
attribute dict replaces the first. -/
theorem c6_counterexample :
    imdEdges (imdAddEdge (imdAddEdge imdEmpty 1 2 5 []) 1 2 5 [("w", 1)])
        none none none none = .ok [(1, 2, 5)] ∧
    (imdAddEdge (imdAddEdge imdEmpty 1 2 5 []) 1 2 5 [("w", 1)]).edgeid = 0 ∧
    (imdAddEdge (imdAddEdge imdEmpty 1 2 5 []) 1 2 5 [("w", 1)]).pred =
      [(1, [(2, [((1, 2, 5), [("w", 1)])])])] := by decide

/-- C6 (amended): `ImpulseDiGraph.add_edge` is last-write-wins on the
key `(u, v, t)`: re-adding the same triple leaves the state exactly as
if only the second call had happened — no second edge instance, no
`edge_id` disambiguation. -/
theorem c6_readd_replaces_edge (g : ImpulseDiGraph) (u v t : Int)
    (a1 a2 : Attr) :
    imdAddEdge (imdAddEdge g u v t a1) u v t a2 = imdAddEdge g u v t a2 := by
  unfold imdAddEdge
  simp only [ImpulseDiGraph.mk.injEq]
  refine ⟨?_, ?_, ?_, ?_, trivial⟩
  · rw [sdModify_sdModify]
    congr 1
    funext s
    exact setAdd_setAdd s (u, v)
  · rw [alSetdefault_of_isSome (alSetdefault (alSetdefault g.nodesAttr u []) v []) u []
      (alGet_isSome_alSetdefault (alSetdefault g.nodesAttr u []) u v []
        (alGet_alSetdefault_self g.nodesAttr u []))]
    exact alSetdefault_of_isSome _ v []
      (alGet_alSetdefault_self (alSetdefault g.nodesAttr u []) v [])
  · rw [alModify_alModify]
    congr 1
    funext mu
    rw [alModify_alModify]
    congr 1
    funext inner
    exact alSet_alSet inner (u, v, t) a1 a2
  · rw [alModify_alModify]
    congr 1
    funext mv
    rw [alModify_alModify]
    congr 1
    funext inner
    exact alSet_alSet inner (u, v, t) a1 a2

/-- The one-impulse-edge graph with a timestamp of `0`. -/
def c7g : ImpulseGraph := imAddEdge imEmpty 1 2 0 []

/-- C7: the boundary-semantics table does NOT hold uniformly across the
edge-query paths.  With the edge `(1, 2, 0)` and default flags
`(True, False)`, `has_edge(1, 2, begin=-1, end=1)` (which uses
`__in_interval`) says the edge qualifies, but `edges(u=1, begin=-1,
end=1)` returns nothing: `__overlaps_or_contains` ends in
`... and iv[2]`, so a timestamp of `0` is falsy and dropped.  Moreover
`edges` ignores its `inclusive` argument entirely: with an edge at
`t = 5`, `edges(begin=0, end=5, inclusive=(True, True))` misses it
although the table's `(True, True)` row requires `begin<=t<=end`. -/
theorem c7_edges_boundary_divergence :
    imInInterval 0 (some (-1)) (some 1) (true, false) = true ∧
    imHasEdge c7g 1 2 (some (-1)) (some 1) (true, false) = .ok true ∧
    imEdges c7g (some 1) none (some (-1)) (some 1) (true, false) = .ok [] ∧
    imEdges (imAddEdge imEmpty 1 2 5 []) none none (some 0) (some 5)
      (true, true) = .ok [] := by decide

/-- The C8 fixture graph: impulse edges
`(1,2,30), (3,2,30), (4,2,30), (2,5,32), (2,5,33)`. -/
def c8graph : ImpulseDiGraph :=
  imdAddEdge (imdAddEdge (imdAddEdge (imdAddEdge (imdAddEdge imdEmpty
    1 2 30 []) 3 2 30 []) 4 2 30 []) 2 5 32 []) 2 5 33 []

/-- C8: `count_temporal_motif` on the fixture graph with motif
`((1,2),(2,3),(2,3))` and `delta=3` returns total count `3` and the
count dictionary `{(1,2,2,5,2,5): 1, (3,2,2,5,2,5): 1,
(4,2,2,5,2,5): 1}` (the association list below is that dictionary). -/
theorem c8_motif_count_concrete :
    countTemporalMotif c8graph [(1, 2), (2, 3), (2, 3)] 3 =
      (3, [([1, 2, 2, 5, 2, 5], 1), ([3, 2, 2, 5, 2, 5], 1),
           ([4, 2, 2, 5, 2, 5], 1)]) := by decide

/-- The C9 fixture: snapshots `(0,3) → g₁` (id 1) and `(3,10) → g₂`
(id 2). -/
def c9sg : SnapshotGraph :=
  { snapshots := [((0, 3), 1), ((3, 10), 2)],
    heap := [(1, [1, 2, 3]), (2, [1, 3, 4])], fresh := 3 }

/-- The snapshot graph after `add_nodes_from([7], start=1, end=3)`. -/
def c9after : SnapshotGraph :=
  match sgAddNodesFrom c9sg [7] (some 1) (some 3) with
  | .ok sg => sg
  | .error _ => c9sg

/-- C9: `add_nodes_from([7], start=1, end=3)` splits `(0,3)` into
`(0,1) → g₁` and `(1,3) → mutated copy` as claimed, but it does NOT
leave `(3,10) → g₂` untouched: because the end-side split condition only
tests `end < keys[max_idx][1]`, the boundary window also pops `(3,10)`,
re-inserting a degenerate `(3,3) → g₂` entry and a fresh deep copy under
`(3,10)`. -/
theorem c9_snapshot_boundary_split :
    sgAddNodesFrom c9sg [7] (some 1) (some 3) = .ok c9after ∧
    c9after.snapshots =
      [((0, 1), 1), ((1, 3), 3), ((3, 3), 2), ((3, 10), 4)] ∧
    alGet c9after.heap 1 = some [1, 2, 3] ∧
    alGet c9after.heap 3 = some [1, 2, 3, 7] ∧
    alGet c9after.heap 4 = some [1, 3, 4] ∧
    alGet c9after.snapshots (3, 10) ≠ some 2 := by decide

/-- C10: for both graph classes, `degree()` with no node divides by the
number of window-selected nodes with no guard: whenever that selection
is empty the call ends in `ZeroDivisionError` (the `.error` case). -/
theorem c10_degree_mean_zero_division :
    (∀ (g : IntervalGraph) (b? e? : Option Int),
      igNodesWindow g b? e? = [] →
      igDegreeMean g b? e? = .error "ZeroDivisionError") ∧
    (∀ (g : ImpulseGraph) (b? e? : Option Int) (inc : Bool × Bool),
      imNodesWindow g b? e?
        (if e? = none then (inc.1, true) else inc) = .ok [] →
      imDegreeMean g b? e? inc = .error "ZeroDivisionError") := by
  constructor
  · intro g b? e? hns
    simp [igDegreeMean, hns, pure, Except.pure]
  · intro g b? e? inc hns
    simp [imDegreeMean, hns, pure, Except.pure]

/-- Witness for C10: an empty `IntervalGraph` with no window, and an
`ImpulseGraph` holding the edge `(1, 2, 3)` queried over the empty
window `[100, 200)`. -/
theorem c10_degree_mean_zero_division_witness :
    (igNodesWindow igEmpty none none = [] ∧
      igDegreeMean igEmpty none none = .error "ZeroDivisionError") ∧
    (imNodesWindow (imAddEdge imEmpty 1 2 3 []) (some 100) (some 200)
        (if (some (200 : Int)) = none then (true, true) else (true, false)) =
        .ok [] ∧
      imDegreeMean (imAddEdge imEmpty 1 2 3 []) (some 100) (some 200)
        (true, false) = .error "ZeroDivisionError") :=
  ⟨⟨by decide, c10_degree_mean_zero_division.1 igEmpty none none (by decide)⟩,
   ⟨by decide, c10_degree_mean_zero_division.2 (imAddEdge imEmpty 1 2 3 [])
     (some 100) (some 200) (true, false) (by decide)⟩⟩
